import Mathlib

/-!
The program `nvim/examplesrc/main.go`

A shallow embedding of the example Go program: the `Person` record and its
`String` method, `calculateSum`, the goroutine/channel producer
`processAsync`, and the `select` loop of `main`.

Go's `int` is a fixed-width two's-complement integer whose width (32 or 64
bits) depends on the platform.  Values are modelled as `Int`; every
arithmetic operation of the source is followed by `wrapInt w`, where `w` is
the width of `int`.
-/

namespace Examplesrc

/-! ## Machine integers -/

/-- Text type of the program (Go `string`). -/
abbrev Str := String

/-- Two's-complement wrap-around of a mathematical integer to `w` bits. -/
def wrapInt (w : Nat) (x : Int) : Int :=
  (x + 2 ^ (w - 1)) % 2 ^ w - 2 ^ (w - 1)

/-- The value `x` is representable as a `w`-bit Go `int`. -/
def IsInt (w : Nat) (x : Int) : Prop :=
  -(2 ^ (w - 1)) ≤ x ∧ x < 2 ^ (w - 1)

instance (w : Nat) (x : Int) : Decidable (IsInt w x) := by
  unfold IsInt; infer_instance

/-! ## The fragment of package `fmt` used by the program -/

/-- Operand of a formatting call: the program passes strings and ints. -/
inductive Arg where
  | str (s : Str)
  | int (n : Int)

/-- Decimal rendering of an integer, as produced by the verb `%d`:
a minus sign for negative numbers followed by the base-10 digits. -/
def formatInt (n : Int) : Str :=
  if n < 0 then "-" ++ Nat.repr n.natAbs else Nat.repr n.natAbs

/-- Rendering `type=value` used by `fmt` in its error markers. -/
def Arg.typeValue : Arg → List Char
  | .str s => "string=".data ++ s.data
  | .int n => "int=".data ++ (formatInt n).data

/-- One operand under one verb.  The verbs `s` and `d` are modelled; an
operand under a verb that does not apply to it is rendered by `fmt` as
`%!verb(type=value)`. -/
def fmtArg (verb : Char) (a : Arg) : List Char :=
  match a with
  | .str s =>
    if verb = 's' then s.data
    else "%!".data ++ [verb] ++ "(".data ++ a.typeValue ++ ")".data
  | .int n =>
    if verb = 'd' then (formatInt n).data
    else "%!".data ++ [verb] ++ "(".data ++ a.typeValue ++ ")".data

/-- Marker appended by `fmt` when operands are left over. -/
def extraArgs : List Arg → List Char
  | [] => []
  | a :: as =>
    "%!(EXTRA ".data ++ a.typeValue
      ++ (as.map (fun b => ", ".data ++ b.typeValue)).flatten ++ ")".data

/-- The scanning loop of `fmt.Sprintf` over the format: ordinary characters
are copied, `%%` yields a percent sign, `%` followed by a verb consumes the
next operand. -/
def sprintfAux : List Char → List Arg → List Char
  | [], args => extraArgs args
  | [c], args => if c = '%' then "%!(NOVERB)".data ++ extraArgs args else c :: extraArgs args
  | c :: v :: rest, args =>
    if c = '%' then
      if v = '%' then '%' :: sprintfAux rest args
      else
        match args with
        | [] => "%!".data ++ [v] ++ "(MISSING)".data ++ sprintfAux rest []
        | a :: args' => fmtArg v a ++ sprintfAux rest args'
    else c :: sprintfAux (v :: rest) args

/-- The call `fmt.Sprintf(format, args...)`. -/
def Sprintf (format : Str) (args : List Arg) : Str :=
  String.mk (sprintfAux format.data args)

/-- The text written by `fmt.Println(s)` for one string operand. -/
def Println (s : Str) : Str := s ++ "\n"

/-! ## `Person` -/

/-- The struct `Person`. -/
structure Person where
  Name : Str
  Age : Int

/-- The method `func (p Person) String() string`. -/
def Person.String (p : Person) : Str :=
  Sprintf "Person\x7bName: %s, Age: %d\x7d" [.str p.Name, .int p.Age]

/-! ## `calculateSum` -/

/-- The function `calculateSum(a, b int) int`; `w` is the width of `int`. -/
def calculateSum (w : Nat) (a b : Int) : Int :=
  if a > 0 then wrapInt w (a + b) else 0

/-! ## Channels -/

/-- A Go channel of `int`: the queued values (oldest first), the capacity
given to `make`, and whether `close` has been called. -/
structure Chan where
  buf : List Int
  cap : Nat
  closed : Bool
  deriving DecidableEq

/-- The call `make(chan int, cap)`. -/
def make (cap : Nat) : Chan :=
  { buf := [], cap := cap, closed := false }

/-- What a send statement can do. -/
inductive SendResult where
  | sent (c : Chan)
  | blocks
  | panics
  deriving DecidableEq

/-- The statement `c <- v`: it panics on a closed channel, enqueues when the
buffer has room, and otherwise blocks.  (A direct hand-over to a waiting
receiver is an enqueue followed by a receive.) -/
def Chan.send (c : Chan) (v : Int) : SendResult :=
  if c.closed then .panics
  else if c.buf.length < c.cap then .sent { c with buf := c.buf ++ [v] }
  else .blocks

/-- The call `close(c)`; `none` is the panic on an already closed channel. -/
def Chan.close (c : Chan) : Option Chan :=
  if c.closed then none else some { c with closed := true }

/-- The receive `v, ok := <-c`; `none` means the receive blocks.  Buffered
values are delivered (with `ok = true`) even after `close`; a closed and
drained channel delivers the zero value with `ok = false`. -/
def Chan.recv (c : Chan) : Option (Chan × Int × Bool) :=
  match c.buf with
  | v :: rest => some ({ c with buf := rest }, v, true)
  | [] => if c.closed then some (c, 0, false) else none

/-! ## `processAsync` -/

/-- Observable actions on the channel, in the order they happen. -/
inductive Act where
  | wrote (v : Int)
  | closedCh
  | got (v : Int)
  | gotClosed
  deriving DecidableEq

/-- The channel `results` together with the goroutine started by
`processAsync`: `todo` holds the elements the `range` loop has not reached
yet, `prodDone` says that the goroutine has returned (after its deferred
`close`), `crashed` that it panicked; `log` records the actions so far. -/
structure Sys where
  todo : List Int
  prodDone : Bool
  crashed : Bool
  ch : Chan
  log : List Act
  deriving DecidableEq

/-- The function `processAsync(nums []int) <-chan int`: it makes the channel
with capacity `len(nums)` and starts the goroutine at the top of its loop. -/
def processAsync (nums : List Int) : Sys :=
  { todo := nums, prodDone := false, crashed := false,
    ch := make nums.length, log := [] }

/-- One step of the goroutine: `results <- num * 2` for the next element of
`nums`, or, once the loop is over, the deferred `close(results)`.  `none`
means the goroutine cannot move (it is blocked, or has finished). -/
def Sys.prodStep (w : Nat) (s : Sys) : Option Sys :=
  if s.crashed || s.prodDone then none
  else
    match s.todo with
    | num :: rest =>
      match s.ch.send (wrapInt w (num * 2)) with
      | .sent c =>
        some { s with todo := rest, ch := c,
                      log := s.log ++ [.wrote (wrapInt w (num * 2))] }
      | .blocks => none
      | .panics => some { s with crashed := true }
    | [] =>
      match s.ch.close with
      | some c => some { s with prodDone := true, ch := c, log := s.log ++ [.closedCh] }
      | none => some { s with crashed := true }

/-- One receive by the holder of the returned channel, with its result
`(value, ok)`; `none` means the receive blocks. -/
def Sys.recvStep (s : Sys) : Option (Sys × Int × Bool) :=
  if s.crashed then none
  else
    match s.ch.recv with
    | none => none
    | some (c, v, ok) =>
      some ({ s with ch := c, log := s.log ++ [if ok then .got v else .gotClosed] }, v, ok)

/-- Who moves next: the goroutine or the receiver. -/
inductive Event where
  | prod
  | recv
  deriving DecidableEq

/-- One step of the producer/consumer system. -/
def Sys.step (w : Nat) (e : Event) (s : Sys) : Option Sys :=
  match e with
  | .prod => s.prodStep w
  | .recv => s.recvStep.map (fun r => r.1)

/-- Running a schedule; `none` when some scheduled step is not enabled. -/
def Sys.exec (w : Nat) : List Event → Sys → Option Sys
  | [], s => some s
  | e :: es, s => (s.step w e).bind (Sys.exec w es)

/-- The values written to the channel, in order. -/
def writes (log : List Act) : List Int :=
  log.filterMap (fun a => match a with | .wrote v => some v | _ => none)

/-- The values delivered to the receiver, in order. -/
def received (log : List Act) : List Int :=
  log.filterMap (fun a => match a with | .got v => some v | _ => none)

/-- The actions of the goroutine, in order. -/
def prodLog (log : List Act) : List Act :=
  log.filter (fun a => match a with | .wrote _ => true | .closedCh => true | _ => false)

/-- The observations of the receiver, in order. -/
def consLog (log : List Act) : List Act :=
  log.filter (fun a => match a with | .got _ => true | .gotClosed => true | _ => false)

/-! ## `processAsync` in a runtime with several channels and goroutines -/

/-- A goroutine started by `processAsync`: the channel `results` its closure
captured (an index into the channels of the runtime), the elements of the
captured `nums` its loop has not reached yet, and whether it has returned. -/
structure Goroutine where
  results : Nat
  todo : List Int
  done : Bool
  deriving DecidableEq

/-- The state of a process in which `processAsync` may be called any number
of times: all channels made so far (in the order of `make`), all goroutines
started so far (in the order of `go`), whether some goroutine has panicked
(which ends the whole process), and the actions so far, each with the index
of the channel it acted on. -/
structure Runtime where
  chans : List Chan
  procs : List Goroutine
  crashed : Bool
  trace : List (Nat × Act)
  deriving DecidableEq

/-- A process that has made no channel and started no goroutine. -/
def Runtime.empty : Runtime :=
  { chans := [], procs := [], crashed := false, trace := [] }

/-- The function `processAsync(nums []int) <-chan int` as a state
transformer: `make` adds a new channel of capacity `len(nums)`, `go` adds a
goroutine whose closure holds that channel and `nums`, and the channel is
returned. -/
def Runtime.processAsync (rt : Runtime) (nums : List Int) : Nat × Runtime :=
  let results := rt.chans.length
  (results,
    { rt with chans := rt.chans ++ [make nums.length],
              procs := rt.procs ++ [{ results := results, todo := nums, done := false }] })

/-- One step of goroutine `g`: `results <- num * 2` on the channel it
captured, or the deferred `close(results)` once its loop is over. -/
def Runtime.goStep (w : Nat) (g : Nat) (rt : Runtime) : Option Runtime :=
  if rt.crashed then none
  else
    match rt.procs[g]? with
    | none => none
    | some p =>
      if p.done then none
      else
        match rt.chans[p.results]? with
        | none => none
        | some c =>
          match p.todo with
          | num :: rest =>
            match c.send (wrapInt w (num * 2)) with
            | .sent c2 =>
              some { rt with chans := rt.chans.set p.results c2,
                             procs := rt.procs.set g { p with todo := rest },
                             trace := rt.trace ++ [(p.results, .wrote (wrapInt w (num * 2)))] }
            | .blocks => none
            | .panics => some { rt with crashed := true }
          | [] =>
            match c.close with
            | some c2 =>
              some { rt with chans := rt.chans.set p.results c2,
                             procs := rt.procs.set g { p with done := true },
                             trace := rt.trace ++ [(p.results, .closedCh)] }
            | none => some { rt with crashed := true }

/-- One receive `v, ok := <-c` from channel `c` by its holder. -/
def Runtime.recvStep (c : Nat) (rt : Runtime) : Option Runtime :=
  if rt.crashed then none
  else
    match rt.chans[c]? with
    | none => none
    | some ch =>
      match ch.recv with
      | none => none
      | some (ch2, v, ok) =>
        some { rt with chans := rt.chans.set c ch2,
                       trace := rt.trace ++ [(c, if ok then .got v else .gotClosed)] }

/-- What moves next in the runtime: goroutine `g`, or a receive from
channel `c`. -/
inductive RtEvent where
  | go (g : Nat)
  | recv (c : Nat)
  deriving DecidableEq

/-- One step of the runtime. -/
def Runtime.step (w : Nat) (e : RtEvent) (rt : Runtime) : Option Runtime :=
  match e with
  | .go g => rt.goStep w g
  | .recv c => rt.recvStep c

/-- Running a schedule of the runtime. -/
def Runtime.exec (w : Nat) : List RtEvent → Runtime → Option Runtime
  | [], rt => some rt
  | e :: es, rt => (rt.step w e).bind (Runtime.exec w es)

/-- The actions on channel `c`, in order. -/
def logOf (c : Nat) (trace : List (Nat × Act)) : List Act :=
  (trace.filter (fun e => e.1 = c)).map (fun e => e.2)

/-- The values delivered so far to the receiver of channel `c`. -/
def Runtime.delivered (rt : Runtime) (c : Nat) : List Int :=
  received (logOf c rt.trace)

/-- The part of the runtime that belongs to goroutine `g`: the goroutine, the
channel it captured and the actions on that channel, put together as a state
of the one-invocation system. -/
def Runtime.view (rt : Runtime) (g : Nat) : Option Sys :=
  match rt.procs[g]? with
  | none => none
  | some p =>
    match rt.chans[p.results]? with
    | none => none
    | some c =>
      some { todo := p.todo, prodDone := p.done, crashed := rt.crashed, ch := c,
             log := logOf p.results rt.trace }

/-- The events of a runtime schedule that are steps of goroutine `g` or
receives from channel `c`, as events of the one-invocation system. -/
def streamEvents (g c : Nat) (es : List RtEvent) : List Event :=
  es.filterMap (fun e =>
    match e with
    | .go g2 => if g2 = g then some Event.prod else none
    | .recv c2 => if c2 = c then some Event.recv else none)

/-- The event of the runtime that is event `e` of goroutine `g` and its
channel `c`. -/
def liftEvent (g c : Nat) (e : Event) : RtEvent :=
  match e with
  | .prod => .go g
  | .recv => .recv c

/-! ## `main` -/

/-- Where `main` is: waiting in the `select`, returned after seeing the
channel closed, or returned from the timeout case. -/
inductive Status where
  | waiting
  | exited
  | timedOut
  deriving DecidableEq

/-- The state of the process while `main` runs its loop: the channel and
goroutine, the writes to standard output so far (one entry per print call),
and the status of `main`. -/
structure Main where
  results : Sys
  out : List Str
  status : Status
  deriving DecidableEq

/-- The events of the loop: a goroutine step, the receive case of the
`select`, and the case of `time.After` firing. -/
inductive MainEvent where
  | prod
  | recv
  | timer
  deriving DecidableEq

/-- One step of the process during the loop `for { select { ... } }`.
Nothing moves once `main` has returned or the goroutine has panicked. -/
def Main.step (w : Nat) (e : MainEvent) (m : Main) : Option Main :=
  if m.results.crashed then none
  else
    match m.status with
    | .waiting =>
      match e with
      | .prod => (m.results.prodStep w).map (fun s => { m with results := s })
      | .recv =>
        match m.results.recvStep with
        | none => none
        | some (s, result, ok) =>
          if !ok then some { m with results := s, status := .exited }
          else some { m with results := s,
                             out := m.out ++ [Sprintf "Result: %d\n" [.int result]] }
      | .timer => some { m with out := m.out ++ [Println "Timeout"], status := .timedOut }
    | _ => none

/-- Running a schedule of the loop. -/
def Main.exec (w : Nat) : List MainEvent → Main → Option Main
  | [], m => some m
  | e :: es, m => (m.step w e).bind (Main.exec w es)

/-- The state in which a loop over `processAsync(nums)` starts, after
`pre` has been written. -/
def loopStart (pre : List Str) (nums : List Int) : Main :=
  { results := processAsync nums, out := pre, status := .waiting }

/-- The function `main` up to the loop: it prints the person and the sum,
then calls `processAsync` on `numbers`. -/
def main (w : Nat) : Main :=
  let person : Person := { Name := "Alice", Age := 30 }
  let out := [Println person.String]
  let sum := calculateSum w 5 3
  let out := out ++ [Sprintf "Sum: %d\n" [.int sum]]
  let numbers : List Int := [1, 2, 3, 4, 5]
  let results := processAsync numbers
  { results := results, out := out, status := .waiting }


/-! ## Invariant of the producer/consumer system -/

/-- The values `processAsync(nums)` writes: `num * 2` in `int` arithmetic. -/
def doubled (w : Nat) (nums : List Int) : List Int :=
  nums.map (fun num => wrapInt w (num * 2))

/-- What holds in every state reachable from `processAsync nums`. -/
structure Inv (w : Nat) (nums : List Int) (s : Sys) : Prop where
  nocrash : s.crashed = false
  cap_eq : s.ch.cap = nums.length
  closed_eq : s.ch.closed = s.prodDone
  done_todo : s.prodDone = true → s.todo = []
  split : ∃ sent, nums = sent ++ s.todo ∧ writes s.log = doubled w sent
  recv_buf : received s.log ++ s.ch.buf = writes s.log
  prod_log : prodLog s.log
    = (writes s.log).map Act.wrote ++ (if s.prodDone then [Act.closedCh] else [])
  cons_log : ∃ k, consLog s.log = (received s.log).map Act.got ++ List.replicate k Act.gotClosed
    ∧ (0 < k → s.prodDone = true ∧ s.ch.buf = [])

/-- The text `main` prints for one received value. -/
def resultLine (result : Int) : Str :=
  Sprintf "Result: %d\n" [.int result]

/-- What holds in every state of a loop started by `loopStart pre nums`: the
invariant of the channel system, the output as a function of the values
received, and the close signal seen exactly when `main` has returned from
the receive case. -/
structure MInv (w : Nat) (pre : List Str) (nums : List Int) (m : Main) : Prop where
  inv : Inv w nums m.results
  out_eq : m.out = pre ++ (received m.results.log).map resultLine
    ++ (if m.status = Status.timedOut then [Println "Timeout"] else [])
  cons_eq : consLog m.results.log = (received m.results.log).map Act.got
    ++ (if m.status = Status.exited then [Act.gotClosed] else [])

/-- What holds in every runtime reached by calls of `processAsync` and steps:
no goroutine has panicked, every goroutine holds the channel made in the same
call (goroutine `g` holds channel `g`), the trace mentions only channels that
exist, and every goroutine with its channel satisfies the invariant of the
one-invocation system for some input. -/
structure GInv (w : Nat) (rt : Runtime) : Prop where
  nocrash : rt.crashed = false
  len_eq : rt.chans.length = rt.procs.length
  owns : ∀ (g : Nat) (p : Goroutine), rt.procs[g]? = some p → p.results = g
  fresh : ∀ e ∈ rt.trace, e.1 < rt.chans.length
  streams : ∀ g s, rt.view g = some s → ∃ nums, Inv w nums s

/-- The lines `main` prints before its loop. -/
def mainHeader : List Str :=
  ["Person\x7bName: Alice, Age: 30\x7d\n", "Sum: 8\n"]

/-- The lines the loop of `main` prints for the five values. -/
def mainResults : List Str :=
  ["Result: 2\n", "Result: 4\n", "Result: 6\n", "Result: 8\n", "Result: 10\n"]

/-- A schedule of `main` without timer events: the goroutine and the loop
alternate. -/
def mainSchedule : List MainEvent :=
  [.prod, .recv, .prod, .recv, .prod, .recv, .prod, .recv, .prod, .recv, .prod, .recv]

/-- The state of `main` after `mainSchedule`. -/
def mainFinal : Main :=
  { results :=
      { todo := [], prodDone := true, crashed := false,
        ch := { buf := [], cap := 5, closed := true },
        log := [.wrote 2, .got 2, .wrote 4, .got 4, .wrote 6, .got 6, .wrote 8, .got 8,
                .wrote 10, .got 10, .closedCh, .gotClosed] },
    out := mainHeader ++ mainResults,
    status := .exited }

/-- The state of `main` when the timer fires after two values were printed. -/
def mainTimedOut : Main :=
  { results :=
      { todo := [4, 5], prodDone := false, crashed := false,
        ch := { buf := [6], cap := 5, closed := false },
        log := [.wrote 2, .wrote 4, .got 2, .wrote 6, .got 4] },
    out := mainHeader ++ ["Result: 2\n", "Result: 4\n", "Timeout\n"],
    status := .timedOut }

/-- A schedule of `main` that leads to `mainTimedOut`. -/
def timeoutSchedule : List MainEvent :=
  [.prod, .prod, .recv, .prod, .recv, .timer]

/-- A schedule in which the goroutine runs to its end before the receiver
drains the channel of five values and sees it closed. -/
def demoSchedule : List Event :=
  List.replicate 6 Event.prod ++ List.replicate 6 Event.recv

/-- The state `processAsync [1, 2, 3, 4, 5]` is in after `demoSchedule`. -/
def demoFinal : Sys :=
  { todo := [], prodDone := true, crashed := false,
    ch := { buf := [], cap := 5, closed := true },
    log := [.wrote 2, .wrote 4, .wrote 6, .wrote 8, .wrote 10, .closedCh,
            .got 2, .got 4, .got 6, .got 8, .got 10, .gotClosed] }

/-- The state `processAsync [1, 2, 3, 4, 5]` is in after two steps of the
goroutine and no receive. -/
def demoMid : Sys :=
  { todo := [3, 4, 5], prodDone := false, crashed := false,
    ch := { buf := [2, 4], cap := 5, closed := false },
    log := [.wrote 2, .wrote 4] }

/-- A schedule of the runtime after the first call of `processAsync [1, 2]`:
the first goroutine sends once and the value is received. -/
def demoEvents1 : List RtEvent := [.go 0, .recv 0]

/-- The runtime after `demoEvents1`. -/
def demoRuntime1 : Runtime :=
  { chans := [{ buf := [], cap := 2, closed := false }],
    procs := [{ results := 0, todo := [2], done := false }],
    crashed := false,
    trace := [(0, .wrote 2), (0, .got 2)] }

/-- A schedule after the second call of `processAsync [1, 2]`: each goroutine
sends once and nothing is received. -/
def demoEvents2 : List RtEvent := [.go 1, .go 0]

/-- The runtime after the second call and `demoEvents2`. -/
def demoRuntime2 : Runtime :=
  { chans := [{ buf := [4], cap := 2, closed := false },
              { buf := [2], cap := 2, closed := false }],
    procs := [{ results := 0, todo := [], done := false },
              { results := 1, todo := [2], done := false }],
    crashed := false,
    trace := [(0, .wrote 2), (0, .got 2), (1, .wrote 2), (0, .wrote 4)] }

/-! ## Lemmas on machine integers and formatting -/

theorem two_pow_width (w : Nat) (hw : 0 < w) : (2 : Int) ^ w = 2 * 2 ^ (w - 1) := by
  obtain ⟨k, rfl⟩ : ∃ k, w = k + 1 := ⟨w - 1, by omega⟩
  simp [pow_succ, mul_comm]

theorem wrapInt_of_isInt (w : Nat) (hw : 0 < w) (x : Int) (h : IsInt w x) :
    wrapInt w x = x := by
  unfold wrapInt
  obtain ⟨h1, h2⟩ := h
  rw [two_pow_width w hw, Int.emod_eq_of_lt (by linarith) (by linarith)]
  ring

theorem isInt_of_small (w : Nat) (hw : 32 ≤ w) (x : Int) (h1 : -2147483648 ≤ x)
    (h2 : x < 2147483648) : IsInt w x := by
  have h : (2 : Int) ^ 31 ≤ 2 ^ (w - 1) :=
    pow_le_pow_right₀ (by norm_num) (by omega)
  have h31 : (2 : Int) ^ 31 = 2147483648 := by norm_num
  constructor <;> linarith

theorem fmt_person_chars :
    "Person\x7bName: %s, Age: %d\x7d".data
      = "Person\x7bName: ".data ++ ('%' :: 's' :: (", Age: ".data ++ ['%', 'd', '}'])) := by
  decide

theorem sprintfAux_plain (pre : List Char) (h : '%' ∉ pre) (c v : Char) (rest : List Char)
    (args : List Arg) :
    sprintfAux (pre ++ c :: v :: rest) args = pre ++ sprintfAux (c :: v :: rest) args := by
  induction pre with
  | nil => rfl
  | cons p ps ih =>
    have hp : p ≠ '%' := fun e => h (by simp [e])
    have hps : '%' ∉ ps := fun e => h (by simp [e])
    cases ps with
    | nil => simp [sprintfAux, hp]
    | cons q qs =>
      have := ih hps
      simp only [List.cons_append] at this ⊢
      simp only [sprintfAux, hp, if_false, this]

theorem sprintfAux_verb (v : Char) (hv : v ≠ '%') (rest : List Char) (a : Arg)
    (args : List Arg) :
    sprintfAux ('%' :: v :: rest) (a :: args) = fmtArg v a ++ sprintfAux rest args := by
  simp [sprintfAux, hv]

theorem sprintf_person (name : Str) (age : Int) :
    Person.String { Name := name, Age := age }
      = "Person\x7bName: " ++ name ++ ", Age: " ++ formatInt age ++ "\x7d" := by
  unfold Person.String Sprintf
  rw [fmt_person_chars, sprintfAux_plain _ (by decide), sprintfAux_verb _ (by decide),
    sprintfAux_plain _ (by decide), sprintfAux_verb _ (by decide)]
  apply String.ext
  simp [fmtArg, sprintfAux, extraArgs, String.data_append]

/-! ## The invariant -/

theorem inv_init (w : Nat) (nums : List Int) : Inv w nums (processAsync nums) where
  nocrash := rfl
  cap_eq := rfl
  closed_eq := rfl
  done_todo := by simp [processAsync]
  split := ⟨[], by simp [processAsync, writes, doubled]⟩
  recv_buf := by simp [processAsync, writes, received, make]
  prod_log := by simp [processAsync, writes, prodLog]
  cons_log := ⟨0, by simp [processAsync, consLog, received]⟩

theorem buf_length_add (w : Nat) (nums : List Int) (s : Sys) (h : Inv w nums s) :
    (received s.log).length + s.ch.buf.length + s.todo.length = s.ch.cap := by
  obtain ⟨sent, h1, h2⟩ := h.split
  have h3 := congrArg List.length h.recv_buf
  have h4 := congrArg List.length h1
  have h5 := congrArg List.length h2
  simp [doubled] at h3 h4 h5
  rw [h.cap_eq]
  omega

theorem inv_prodStep (w : Nat) (nums : List Int) (s t : Sys) (h : Inv w nums s)
    (hs : s.prodStep w = some t) : Inv w nums t := by
  have hlen := buf_length_add w nums s h
  obtain ⟨hc, hcap, hcl, hdt, ⟨sent, hs1, hs2⟩, hrb, hpl, ⟨k, hk1, hk2⟩⟩ := h
  unfold Sys.prodStep at hs
  cases hd : s.prodDone with
  | true => simp [hc, hd] at hs
  | false =>
    simp only [hc, hd, Bool.or_self, Bool.false_eq_true, if_false] at hs
    have hk0 : k = 0 := by
      by_contra hne
      have := (hk2 (Nat.pos_of_ne_zero hne)).1
      simp [hd] at this
    subst hk0
    cases htodo : s.todo with
    | nil =>
      simp only [htodo, Chan.close, hcl, hd, Bool.false_eq_true, if_false] at hs
      cases hs
      refine ⟨rfl, hcap, rfl, fun _ => rfl, ⟨sent, by simpa [htodo] using hs1, ?_⟩, ?_, ?_,
        ⟨0, ?_, by simp⟩⟩
      · simpa [writes] using hs2
      · simpa [writes, received] using hrb
      · simp [prodLog, writes] at hpl ⊢
        simpa [hd] using hpl
      · simpa [consLog, received] using hk1
    | cons num rest =>
      have hroom : s.ch.buf.length < s.ch.cap := by
        rw [htodo] at hlen; simp at hlen; omega
      simp only [htodo, Chan.send, hcl, hd, Bool.false_eq_true, if_false, hroom, if_true] at hs
      cases hs
      refine ⟨rfl, hcap, rfl, by simp,
        ⟨sent ++ [num], by simp [hs1, htodo], ?_⟩, ?_, ?_, ⟨0, ?_, by simp⟩⟩
      · simp [writes, doubled] at hs2 ⊢
        simp [hs2]
      · simp [writes, received] at hrb ⊢
        rw [← hrb]; simp
      · simp [prodLog, writes, hd] at hpl ⊢
        simp [hpl]
      · simpa [consLog, received] using hk1

theorem inv_recvStep (w : Nat) (nums : List Int) (s t : Sys) (v : Int) (ok : Bool)
    (h : Inv w nums s) (hs : s.recvStep = some (t, v, ok)) :
    Inv w nums t ∧ t.todo = s.todo ∧ t.prodDone = s.prodDone
      ∧ t.log = s.log ++ [if ok then Act.got v else Act.gotClosed]
      ∧ (ok = false → s.prodDone = true ∧ s.ch.buf = [] ∧ t.ch.buf = []) := by
  obtain ⟨hc, hcap, hcl, hdt, ⟨sent, hs1, hs2⟩, hrb, hpl, ⟨k, hk1, hk2⟩⟩ := h
  unfold Sys.recvStep Chan.recv at hs
  simp only [hc, Bool.false_eq_true, if_false] at hs
  cases hbuf : s.ch.buf with
  | nil =>
    cases hd : s.prodDone with
    | false => simp [hbuf, hcl, hd] at hs
    | true =>
      simp only [hbuf, hcl, hd, if_true, Option.some.injEq, Prod.mk.injEq] at hs
      obtain ⟨rfl, rfl, rfl⟩ := hs
      refine ⟨⟨rfl, hcap, by simp [hcl, hd], fun _ => by simpa using hdt hd, ⟨sent, hs1, ?_⟩,
        ?_, ?_, ⟨k + 1, ?_, fun _ => ⟨rfl, hbuf⟩⟩⟩, rfl, rfl, by simp, fun _ => ⟨rfl, rfl, hbuf⟩⟩
      · simpa [writes] using hs2
      · simpa [writes, received] using hrb
      · simpa [prodLog, writes, hd] using hpl
      · simp [consLog, received, List.replicate_succ'] at hk1 ⊢
        simp [hk1]
  | cons x rest =>
    simp only [hbuf, Option.some.injEq, Prod.mk.injEq] at hs
    obtain ⟨rfl, rfl, rfl⟩ := hs
    have hk0 : k = 0 := by
      by_contra hne
      have := (hk2 (Nat.pos_of_ne_zero hne)).2
      simp [hbuf] at this
    subst hk0
    refine ⟨⟨rfl, hcap, hcl, hdt, ⟨sent, hs1, ?_⟩, ?_, ?_, ⟨0, ?_, by simp⟩⟩,
      rfl, rfl, by simp, by simp⟩
    · simpa [writes] using hs2
    · simp [writes, received, hbuf] at hrb ⊢
      simpa using hrb
    · simpa [prodLog, writes] using hpl
    · simp [consLog, received] at hk1 ⊢
      simp [hk1]

theorem inv_step (w : Nat) (nums : List Int) (e : Event) (s t : Sys) (h : Inv w nums s)
    (hs : s.step w e = some t) : Inv w nums t := by
  cases e with
  | prod => exact inv_prodStep w nums s t h hs
  | recv =>
    simp only [Sys.step, Option.map_eq_some'] at hs
    obtain ⟨⟨t', v, ok⟩, hr, rfl⟩ := hs
    exact (inv_recvStep w nums s t' v ok h hr).1

theorem inv_exec (w : Nat) (nums : List Int) (es : List Event) (s t : Sys) (h : Inv w nums s)
    (hs : Sys.exec w es s = some t) : Inv w nums t := by
  induction es generalizing s with
  | nil => simp only [Sys.exec, Option.some.injEq] at hs; exact hs ▸ h
  | cons e es ih =>
    simp only [Sys.exec, Option.bind_eq_some] at hs
    obtain ⟨s1, h1, h2⟩ := hs
    exact ih s1 (inv_step w nums e s s1 h h1) h2

theorem inv_reachable (w : Nat) (nums : List Int) (es : List Event) (s : Sys)
    (hs : Sys.exec w es (processAsync nums) = some s) : Inv w nums s :=
  inv_exec w nums es _ s (inv_init w nums) hs

theorem exec_append (w : Nat) (es fs : List Event) (s : Sys) :
    Sys.exec w (es ++ fs) s = (Sys.exec w es s).bind (Sys.exec w fs) := by
  induction es generalizing s with
  | nil => simp [Sys.exec]
  | cons e es ih =>
    simp only [List.cons_append, Sys.exec]
    cases s.step w e with
    | none => simp
    | some s1 => simp [ih]

/-! ## Progress of the goroutine and of the receiver -/

theorem prodStep_send (w : Nat) (nums : List Int) (s : Sys) (h : Inv w nums s)
    (num : Int) (rest : List Int) (ht : s.todo = num :: rest) :
    s.ch.buf.length < s.ch.cap
      ∧ s.prodStep w = some { s with
          todo := rest, ch := { s.ch with buf := s.ch.buf ++ [wrapInt w (num * 2)] },
          log := s.log ++ [Act.wrote (wrapInt w (num * 2))] } := by
  have hlen := buf_length_add w nums s h
  have hd : s.prodDone = false := by
    cases hd : s.prodDone with
    | false => rfl
    | true => have := h.done_todo hd; simp [ht] at this
  have hroom : s.ch.buf.length < s.ch.cap := by
    rw [ht] at hlen; simp at hlen; omega
  refine ⟨hroom, ?_⟩
  simp [Sys.prodStep, h.nocrash, hd, ht, Chan.send, h.closed_eq, hroom]

theorem prodStep_close (w : Nat) (nums : List Int) (s : Sys) (h : Inv w nums s)
    (hd : s.prodDone = false) (ht : s.todo = []) :
    s.prodStep w = some { s with
      prodDone := true, ch := { s.ch with closed := true },
      log := s.log ++ [Act.closedCh] } := by
  simp [Sys.prodStep, h.nocrash, hd, ht, Chan.close, h.closed_eq]

theorem prod_run (w : Nat) (nums : List Int) (todo : List Int) (s : Sys) (h : Inv w nums s)
    (hd : s.prodDone = false) (ht : s.todo = todo) :
    ∃ t, Sys.exec w (List.replicate (todo.length + 1) Event.prod) s = some t
      ∧ t.prodDone = true ∧ t.todo = [] ∧ t.ch.buf = s.ch.buf ++ doubled w todo
      ∧ received t.log = received s.log := by
  induction todo generalizing s with
  | nil =>
    refine ⟨{ s with prodDone := true, ch := { s.ch with closed := true },
                     log := s.log ++ [Act.closedCh] }, ?_, rfl, ht, ?_, ?_⟩
    · simp [Sys.exec, Sys.step, prodStep_close w nums s h hd ht]
    · simp [doubled]
    · simp [received]
  | cons num rest ih =>
    have hstep := (prodStep_send w nums s h num rest ht).2
    have hinv := inv_prodStep w nums s _ h hstep
    obtain ⟨t, h1, h2, h3, h4, h5⟩ := ih _ hinv hd rfl
    refine ⟨t, ?_, h2, h3, ?_, ?_⟩
    · rw [List.length_cons, List.replicate_succ, Sys.exec]
      simp only [Sys.step, hstep, Option.some_bind]
      exact h1
    · rw [h4]; simp [doubled]
    · rw [h5]; simp [received]

theorem recv_run (w : Nat) (nums : List Int) (buf : List Int) (s : Sys) (h : Inv w nums s)
    (hd : s.prodDone = true) (hb : s.ch.buf = buf) :
    ∃ t, Sys.exec w (List.replicate (buf.length + 1) Event.recv) s = some t
      ∧ Act.gotClosed ∈ t.log ∧ received t.log = received s.log ++ buf := by
  induction buf generalizing s with
  | nil =>
    have hstep : s.recvStep
        = some ({ s with log := s.log ++ [Act.gotClosed] }, 0, false) := by
      simp [Sys.recvStep, Chan.recv, h.nocrash, hb, h.closed_eq, hd]
    refine ⟨{ s with log := s.log ++ [Act.gotClosed] }, ?_, ?_, ?_⟩
    · simp [Sys.exec, Sys.step, hstep]
    · simp
    · simp [received]
  | cons x rest ih =>
    have hstep : s.recvStep
        = some ({ s with ch := { s.ch with buf := rest }, log := s.log ++ [Act.got x] },
            x, true) := by
      simp [Sys.recvStep, Chan.recv, h.nocrash, hb]
    have hinv := (inv_recvStep w nums s _ _ _ h hstep).1
    obtain ⟨t, h1, h2, h3⟩ := ih _ hinv hd rfl
    refine ⟨t, ?_, h2, ?_⟩
    · rw [List.length_cons, List.replicate_succ, Sys.exec]
      simp only [Sys.step, hstep, Option.map_some', Option.some_bind]
      exact h1
    · rw [h3]; simp [received]

theorem received_initial (w : Nat) (nums : List Int) (s : Sys) (h : Inv w nums s) :
    doubled w nums = received s.log ++ (s.ch.buf ++ doubled w s.todo) := by
  obtain ⟨sent, h1, h2⟩ := h.split
  rw [← List.append_assoc, h.recv_buf, h2]
  conv_lhs => rw [h1]
  simp [doubled]

theorem received_complete (w : Nat) (nums : List Int) (s : Sys) (h : Inv w nums s)
    (hc : Act.gotClosed ∈ s.log) : received s.log = doubled w nums := by
  obtain ⟨k, hk1, hk2⟩ := h.cons_log
  have hmem : Act.gotClosed ∈ consLog s.log := by
    simp [consLog, List.mem_filter, hc]
  rw [hk1] at hmem
  have hk : 0 < k := by
    rcases Nat.eq_zero_or_pos k with h0 | h0
    · subst h0; simp at hmem
    · exact h0
  obtain ⟨hd, hb⟩ := hk2 hk
  rw [received_initial w nums s h, hb, h.done_todo hd]
  simp [doubled]

theorem doubled_exact (w : Nat) (hw : 0 < w) (nums : List Int)
    (h : ∀ x ∈ nums, IsInt w (x * 2)) : doubled w nums = nums.map (fun x => 2 * x) := by
  unfold doubled
  apply List.map_congr_left
  intro x hx
  rw [wrapInt_of_isInt w hw _ (h x hx)]
  ring

theorem can_finish (w : Nat) (nums : List Int) (s : Sys) (h : Inv w nums s) :
    ∃ fs t, Sys.exec w fs s = some t ∧ t.prodDone = true ∧ Act.gotClosed ∈ t.log := by
  have key : ∀ u : Sys, Inv w nums u → u.prodDone = true →
      ∃ fs t, Sys.exec w fs u = some t ∧ t.prodDone = true ∧ Act.gotClosed ∈ t.log := by
    intro u hu hd
    obtain ⟨t, h1, h2, _⟩ := recv_run w nums _ u hu hd rfl
    have hinv := inv_exec w nums _ u t hu h1
    have hmem : Act.gotClosed ∈ consLog t.log := by simp [consLog, List.mem_filter, h2]
    obtain ⟨k, hk1, hk2⟩ := hinv.cons_log
    rw [hk1] at hmem
    have hk : 0 < k := by
      rcases Nat.eq_zero_or_pos k with h0 | h0
      · subst h0; simp at hmem
      · exact h0
    exact ⟨_, t, h1, (hk2 hk).1, h2⟩
  cases hd : s.prodDone with
  | true => exact key s h hd
  | false =>
    obtain ⟨u, h1, h2, _⟩ := prod_run w nums _ s h hd rfl
    obtain ⟨fs, t, h3, h4, h5⟩ := key u (inv_exec w nums _ s u h h1) h2
    exact ⟨_ ++ fs, t, by rw [exec_append, h1]; exact h3, h4, h5⟩

/-! ## `calculateSum` and `Person.String` -/

/-- Beyond the range of `int` the sum wraps: with 64-bit `int`,
`calculateSum(9223372036854775807, 1)` is `-9223372036854775808`. -/
theorem calculateSum_overflow :
    IsInt 64 9223372036854775807 ∧ IsInt 64 1 ∧ (9223372036854775807 : Int) > 0
      ∧ calculateSum 64 9223372036854775807 1 = -9223372036854775808
      ∧ calculateSum 64 9223372036854775807 1 ≠ 9223372036854775807 + 1 := by
  decide

/-- C1: for every `a > 0` and every `b`, `calculateSum(a, b)` returns `a + b`:
the sum in `int` arithmetic, which is the integer `a + b` for all inputs up
to overflow, that is whenever `a + b` is representable as an `int`. -/
theorem calculateSum_pos (w : Nat) (hw : 0 < w) (a b : Int) (ha : a > 0) :
    calculateSum w a b = wrapInt w (a + b)
      ∧ (IsInt w (a + b) → calculateSum w a b = a + b) := by
  have h : calculateSum w a b = wrapInt w (a + b) := by simp [calculateSum, ha]
  exact ⟨h, fun hr => h.trans (wrapInt_of_isInt w hw _ hr)⟩

theorem calculateSum_pos_witness :
    (0 < 64) ∧ ((5 : Int) > 0) ∧ IsInt 64 (5 + 3) ∧ calculateSum 64 5 3 = 5 + 3 :=
  ⟨by decide, by decide, by decide,
    (calculateSum_pos 64 (by decide) 5 3 (by decide)).2 (by decide)⟩

/-- C2: for every `a <= 0` and every `b` (of either sign), `calculateSum(a, b)`
returns `0`; the result does not depend on `b`. -/
theorem calculateSum_nonpos (w : Nat) (a b : Int) (ha : a ≤ 0) :
    calculateSum w a b = 0 ∧ ∀ b2 : Int, calculateSum w a b2 = calculateSum w a b := by
  have h : ∀ c : Int, calculateSum w a c = 0 := fun c => by
    simp [calculateSum, not_lt.mpr ha]
  exact ⟨h b, fun b2 => by rw [h b2, h b]⟩

theorem calculateSum_nonpos_witness :
    ((-4 : Int) ≤ 0) ∧ calculateSum 64 (-4) (-9) = 0 :=
  ⟨by decide, (calculateSum_nonpos 64 (-4) (-9) (by decide)).1⟩

/-- C3: for every name and every age, `Person{name, age}.String()` is
`Person{Name: ` followed by the name, `, Age: `, the decimal rendering of the
age, and `}`; for Alice aged 30 it is `Person{Name: Alice, Age: 30}`, and the
empty name and zero or negative ages are rendered the same way. -/
theorem person_string (name : Str) (age : Int) :
    Person.String { Name := name, Age := age }
        = "Person\x7bName: " ++ name ++ ", Age: " ++ formatInt age ++ "\x7d"
      ∧ Person.String { Name := "Alice", Age := 30 } = "Person\x7bName: Alice, Age: 30\x7d"
      ∧ Person.String { Name := "", Age := 0 } = "Person\x7bName: , Age: 0\x7d"
      ∧ Person.String { Name := "Bob", Age := -12 } = "Person\x7bName: Bob, Age: -12\x7d" :=
  ⟨sprintf_person name age, by decide, by decide, by decide⟩

/-! ## `processAsync` -/

/-- C4 (as stated, refuted): with 64-bit `int` and `nums = [4611686018427387904]`
(a valid `int`), the receiver gets `-9223372036854775808` and then the close
signal; the received value is not twice the element. -/
theorem processAsync_not_twice :
    IsInt 64 4611686018427387904
      ∧ (Sys.exec 64 [.prod, .prod, .recv, .recv] (processAsync [4611686018427387904])).map
          (fun s => (received s.log, decide (Act.gotClosed ∈ s.log)))
        = some ([-9223372036854775808], true)
      ∧ [(-9223372036854775808 : Int)] ≠ [4611686018427387904].map (fun x => 2 * x) := by
  decide

/-- C4 (amended): in every execution of `processAsync(nums)` with a receiver,
the receiver first gets values and then only close signals; the values got so
far are an initial part of `nums` mapped to `num * 2` in `int` arithmetic,
and once the close signal is seen they are exactly that list, in order and
of the same length; when twice each element is representable as an `int` it
is `nums` mapped to twice each element.  From every reachable state the
receiver can reach the close signal. -/
theorem processAsync_delivers (w : Nat) (nums : List Int) (es : List Event) (s : Sys)
    (hs : Sys.exec w es (processAsync nums) = some s) :
    (∃ k, consLog s.log = (received s.log).map Act.got ++ List.replicate k Act.gotClosed)
      ∧ received s.log <+: doubled w nums
      ∧ (Act.gotClosed ∈ s.log →
          received s.log = doubled w nums ∧ (received s.log).length = nums.length)
      ∧ (0 < w → (∀ x ∈ nums, IsInt w (x * 2)) → Act.gotClosed ∈ s.log →
          received s.log = nums.map (fun x => 2 * x))
      ∧ (∃ fs t, Sys.exec w fs s = some t ∧ Act.gotClosed ∈ t.log) := by
  have h := inv_reachable w nums es s hs
  refine ⟨?_, ⟨_, (received_initial w nums s h).symm⟩, ?_, ?_, ?_⟩
  · obtain ⟨k, hk, _⟩ := h.cons_log
    exact ⟨k, hk⟩
  · intro hc
    have := received_complete w nums s h hc
    exact ⟨this, by rw [this]; simp [doubled]⟩
  · intro hw hx hc
    rw [received_complete w nums s h hc, doubled_exact w hw nums hx]
  · obtain ⟨fs, t, h1, _, h2⟩ := can_finish w nums s h
    exact ⟨fs, t, h1, h2⟩

theorem processAsync_delivers_witness :
    Sys.exec 64 demoSchedule (processAsync [1, 2, 3, 4, 5]) = some demoFinal
      ∧ received demoFinal.log = [2, 4, 6, 8, 10] :=
  ⟨by decide,
    ((processAsync_delivers 64 [1, 2, 3, 4, 5] demoSchedule demoFinal (by decide)).2.2.2.1
      (by decide) (by decide) (by decide)).trans (by decide)⟩

theorem count_closedCh (log : List Act) :
    log.count Act.closedCh = (prodLog log).count Act.closedCh := by
  unfold prodLog
  rw [List.count_filter]
  rfl

theorem count_closedCh_wrote (vs : List Int) : (vs.map Act.wrote).count Act.closedCh = 0 := by
  rw [List.count_eq_zero]
  simp

theorem producer_finishes (w : Nat) (nums : List Int) (s : Sys) (h : Inv w nums s) :
    ∃ fs t, Sys.exec w fs s = some t ∧ Inv w nums t ∧ t.prodDone = true ∧ t.todo = []
      ∧ (∀ e ∈ fs, e = Event.prod) := by
  cases hd : s.prodDone with
  | true => exact ⟨[], s, rfl, h, hd, h.done_todo hd, by simp⟩
  | false =>
    obtain ⟨t, h1, h2, h3, _⟩ := prod_run w nums _ s h hd rfl
    exact ⟨_, t, h1, inv_exec w nums _ s t h h1, h2, h3, by simp⟩

theorem prodLog_done (w : Nat) (nums : List Int) (t : Sys) (h : Inv w nums t)
    (hd : t.prodDone = true) :
    prodLog t.log = (doubled w nums).map Act.wrote ++ [Act.closedCh] := by
  obtain ⟨sent, h1, h2⟩ := h.split
  rw [h.prod_log, h2, hd, h1, h.done_todo hd]
  simp

/-- C5: in every execution of the goroutine of `processAsync(nums)`, whatever
the receiver does, the goroutine never panics and its actions so far are
writes of the first elements of `nums` (times two in `int` arithmetic), in
order, followed by the close only if the goroutine has finished, in which
case all `len(nums)` values were written before it; hence the channel is
closed at most once, no value is written after the close, and the close is
the only completion signal.  From every reachable state the goroutine can
finish by its own steps, after which the channel has been closed exactly
once. -/
theorem producer_closes_once (w : Nat) (nums : List Int) (es : List Event) (s : Sys)
    (hs : Sys.exec w es (processAsync nums) = some s) :
    s.crashed = false
      ∧ (∃ sent, nums = sent ++ s.todo
          ∧ prodLog s.log = (doubled w sent).map Act.wrote
              ++ (if s.prodDone then [Act.closedCh] else []))
      ∧ (s.prodDone = true → s.todo = []
          ∧ prodLog s.log = (doubled w nums).map Act.wrote ++ [Act.closedCh])
      ∧ s.log.count Act.closedCh = (if s.prodDone then 1 else 0)
      ∧ s.ch.closed = s.prodDone
      ∧ (∃ fs t, (∀ e ∈ fs, e = Event.prod) ∧ Sys.exec w fs s = some t ∧ t.prodDone = true
          ∧ prodLog t.log = (doubled w nums).map Act.wrote ++ [Act.closedCh]
          ∧ t.log.count Act.closedCh = 1) := by
  have h := inv_reachable w nums es s hs
  have hcount : ∀ u : Sys, Inv w nums u →
      u.log.count Act.closedCh = (if u.prodDone then 1 else 0) := by
    intro u hu
    rw [count_closedCh, hu.prod_log, List.count_append, count_closedCh_wrote]
    cases u.prodDone <;> simp
  refine ⟨h.nocrash, ?_, fun hd => ⟨h.done_todo hd, prodLog_done w nums s h hd⟩,
    hcount s h, h.closed_eq, ?_⟩
  · obtain ⟨sent, h1, h2⟩ := h.split
    exact ⟨sent, h1, by rw [h.prod_log, h2]⟩
  · obtain ⟨fs, t, h1, h2, h3, _, h5⟩ := producer_finishes w nums s h
    exact ⟨fs, t, h5, h1, h3, prodLog_done w nums t h2 h3, by rw [hcount t h2, h3]; rfl⟩

theorem producer_closes_once_witness :
    Sys.exec 64 demoSchedule (processAsync [1, 2, 3, 4, 5]) = some demoFinal
      ∧ demoFinal.log.count Act.closedCh = 1 :=
  ⟨by decide,
    (producer_closes_once 64 [1, 2, 3, 4, 5] demoSchedule demoFinal (by decide)).2.2.2.1⟩

/-- C6: the channel made by `processAsync(nums)` has capacity `len(nums)`; in
every reachable state the number of buffered values is at most the capacity
and strictly below it while elements remain to be sent, so the next step of
an unfinished goroutine is always enabled; the goroutine runs to its end by
its own steps alone, and with a receiver that never reads it ends with all
doubled values buffered. -/
theorem producer_never_blocks (w : Nat) (nums : List Int) (es : List Event) (s : Sys)
    (hs : Sys.exec w es (processAsync nums) = some s) :
    (processAsync nums).ch.cap = nums.length
      ∧ s.ch.cap = nums.length
      ∧ s.ch.buf.length ≤ s.ch.cap
      ∧ (s.todo ≠ [] → s.ch.buf.length < s.ch.cap)
      ∧ (s.prodDone = false → (s.prodStep w).isSome = true)
      ∧ (s.prodDone = false →
          ∃ t, Sys.exec w (List.replicate (s.todo.length + 1) Event.prod) s = some t
            ∧ t.prodDone = true ∧ t.todo = [])
      ∧ (∃ t, Sys.exec w (List.replicate (nums.length + 1) Event.prod) (processAsync nums)
            = some t
          ∧ t.prodDone = true ∧ t.ch.buf = doubled w nums ∧ received t.log = []) := by
  have h := inv_reachable w nums es s hs
  have hlen := buf_length_add w nums s h
  refine ⟨rfl, h.cap_eq, by omega, ?_, ?_, ?_, ?_⟩
  · intro hne
    cases ht : s.todo with
    | nil => exact absurd ht hne
    | cons num rest => rw [ht] at hlen; simp at hlen; omega
  · intro hd
    cases ht : s.todo with
    | nil => rw [prodStep_close w nums s h hd ht]; rfl
    | cons num rest => rw [(prodStep_send w nums s h num rest ht).2]; rfl
  · intro hd
    obtain ⟨t, h1, h2, h3, _⟩ := prod_run w nums _ s h hd rfl
    exact ⟨t, h1, h2, h3⟩
  · obtain ⟨t, h1, h2, _, h4, h5⟩ :=
      prod_run w nums nums (processAsync nums) (inv_init w nums) rfl rfl
    exact ⟨t, h1, h2, by simpa [processAsync, make] using h4,
      by simpa [processAsync, received] using h5⟩

theorem producer_never_blocks_witness :
    Sys.exec 64 [.prod, .prod] (processAsync [1, 2, 3, 4, 5]) = some demoMid
      ∧ demoMid.ch.buf.length ≤ demoMid.ch.cap :=
  ⟨by decide,
    (producer_never_blocks 64 [1, 2, 3, 4, 5] [.prod, .prod] demoMid (by decide)).2.2.1⟩

/-! ## The loop of `main` -/

theorem fmt_result_chars :
    "Result: %d\n".data = "Result: ".data ++ ('%' :: 'd' :: ['\n']) := by
  decide

theorem resultLine_eq (v : Int) : resultLine v = "Result: " ++ formatInt v ++ "\n" := by
  unfold resultLine Sprintf
  rw [fmt_result_chars, sprintfAux_plain _ (by decide), sprintfAux_verb _ (by decide)]
  apply String.ext
  simp [fmtArg, sprintfAux, extraArgs, String.data_append]

theorem main_step_shape (w : Nat) (e : MainEvent) (m m' : Main)
    (h : m.step w e = some m') :
    m.status = Status.waiting ∧
      ((e = MainEvent.prod ∧ m.results.prodStep w = some m'.results
          ∧ m'.out = m.out ∧ m'.status = Status.waiting)
      ∨ (e = MainEvent.recv ∧ (∃ v, m.results.recvStep = some (m'.results, v, true)
          ∧ m'.out = m.out ++ [resultLine v]) ∧ m'.status = Status.waiting)
      ∨ (e = MainEvent.recv ∧ (∃ v, m.results.recvStep = some (m'.results, v, false))
          ∧ m'.out = m.out ∧ m'.status = Status.exited)
      ∨ (e = MainEvent.timer ∧ m'.results = m.results
          ∧ m'.out = m.out ++ [Println "Timeout"] ∧ m'.status = Status.timedOut)) := by
  unfold Main.step at h
  split at h
  · exact absurd h (by simp)
  · split at h
    · rename_i hst
      refine ⟨hst, ?_⟩
      cases e with
      | prod =>
        simp only [Option.map_eq_some'] at h
        obtain ⟨t, ht, rfl⟩ := h
        exact Or.inl ⟨rfl, ht, rfl, hst⟩
      | recv =>
        simp only at h
        split at h
        · exact absurd h (by simp)
        · rename_i t v ok hr
          cases ok with
          | true =>
            simp only [Bool.not_true, Bool.false_eq_true, if_false, Option.some.injEq] at h
            subst h
            exact Or.inr (Or.inl ⟨rfl, ⟨v, hr, rfl⟩, hst⟩)
          | false =>
            simp only [Bool.not_false, if_true, Option.some.injEq] at h
            subst h
            exact Or.inr (Or.inr (Or.inl ⟨rfl, ⟨v, hr⟩, rfl, rfl⟩))
      | timer =>
        simp only [Option.some.injEq] at h
        subst h
        exact Or.inr (Or.inr (Or.inr ⟨rfl, rfl, rfl, rfl⟩))
    · exact absurd h (by simp)

theorem prodStep_log (w : Nat) (nums : List Int) (s t : Sys) (h : Inv w nums s)
    (hs : s.prodStep w = some t) :
    received t.log = received s.log ∧ consLog t.log = consLog s.log
      ∧ t.log.length = s.log.length + 1 := by
  cases ht : s.todo with
  | nil =>
    have hd : s.prodDone = false := by
      cases hd : s.prodDone with
      | false => rfl
      | true => simp [Sys.prodStep, hd] at hs
    rw [prodStep_close w nums s h hd ht] at hs
    cases hs
    simp [received, consLog]
  | cons num rest =>
    rw [(prodStep_send w nums s h num rest ht).2] at hs
    cases hs
    simp [received, consLog]

theorem minv_init (w : Nat) (pre : List Str) (nums : List Int) :
    MInv w pre nums (loopStart pre nums) where
  inv := inv_init w nums
  out_eq := by simp [loopStart, processAsync, received]
  cons_eq := by simp [loopStart, processAsync, received, consLog]

theorem minv_step (w : Nat) (pre : List Str) (nums : List Int) (e : MainEvent) (m m' : Main)
    (h : MInv w pre nums m) (hs : m.step w e = some m') :
    MInv w pre nums m'
      ∧ (e ≠ MainEvent.timer → m'.status ≠ Status.timedOut
          ∧ m'.results.log.length = m.results.log.length + 1) := by
  obtain ⟨hi, ho, hc⟩ := h
  obtain ⟨hst, hcase⟩ := main_step_shape w e m m' hs
  simp only [hst, reduceCtorEq, if_false, List.append_nil] at ho hc
  rcases hcase with ⟨rfl, hp, hout, hst'⟩ | ⟨rfl, ⟨v, hr, hout⟩, hst'⟩
      | ⟨rfl, ⟨v, hr⟩, hout, hst'⟩ | ⟨rfl, hres, hout, hst'⟩
  · obtain ⟨l1, l2, l3⟩ := prodStep_log w nums _ _ hi hp
    refine ⟨⟨inv_prodStep w nums _ _ hi hp, ?_, ?_⟩, fun _ => ⟨by simp [hst'], l3⟩⟩
    · simp [hout, ho, l1, hst']
    · simp [l1, l2, hc, hst']
  · obtain ⟨i1, _, _, i4, _⟩ := inv_recvStep w nums _ _ _ _ hi hr
    refine ⟨⟨i1, ?_, ?_⟩, fun _ => ⟨by simp [hst'], by simp [i4]⟩⟩
    · simp [hout, ho, i4, hst', received]
    · simp [i4, hst', received, consLog] at hc ⊢
      simp [hc]
  · obtain ⟨i1, _, _, i4, _⟩ := inv_recvStep w nums _ _ _ _ hi hr
    refine ⟨⟨i1, ?_, ?_⟩, fun _ => ⟨by simp [hst'], by simp [i4]⟩⟩
    · simp [hout, ho, i4, hst', received]
    · simp [i4, hst', received, consLog] at hc ⊢
      simp [hc]
  · refine ⟨⟨hres ▸ hi, ?_, ?_⟩, fun hne => absurd rfl hne⟩
    · simp [hout, ho, hres, hst']
    · simp [hres, hc, hst']

theorem minv_exec (w : Nat) (pre : List Str) (nums : List Int) (es : List MainEvent)
    (m m' : Main) (h : MInv w pre nums m) (hs : Main.exec w es m = some m') :
    MInv w pre nums m'
      ∧ (MainEvent.timer ∉ es → m.status ≠ Status.timedOut → m'.status ≠ Status.timedOut
          ∧ m'.results.log.length = m.results.log.length + es.length) := by
  induction es generalizing m with
  | nil =>
    simp only [Main.exec, Option.some.injEq] at hs
    subst hs
    exact ⟨h, fun _ hne => ⟨hne, rfl⟩⟩
  | cons e es ih =>
    simp only [Main.exec, Option.bind_eq_some] at hs
    obtain ⟨m1, h1, h2⟩ := hs
    obtain ⟨i1, i2⟩ := minv_step w pre nums e m m1 h h1
    obtain ⟨j1, j2⟩ := ih m1 i1 h2
    refine ⟨j1, fun hnt _ => ?_⟩
    simp only [List.mem_cons, not_or] at hnt
    obtain ⟨k1, k2⟩ := i2 (fun e' => hnt.1 e'.symm)
    obtain ⟨k3, k4⟩ := j2 hnt.2 k1
    exact ⟨k3, by rw [k4, k2, List.length_cons]; omega⟩

theorem main_exec_append (w : Nat) (es fs : List MainEvent) (m : Main) :
    Main.exec w (es ++ fs) m = (Main.exec w es m).bind (Main.exec w fs) := by
  induction es generalizing m with
  | nil => simp [Main.exec]
  | cons e es ih =>
    simp only [List.cons_append, Main.exec]
    cases m.step w e with
    | none => simp
    | some m1 => simp [ih]

theorem log_length (log : List Act) :
    log.length = (prodLog log).length + (consLog log).length := by
  induction log with
  | nil => rfl
  | cons a l ih =>
    cases a <;> simp [prodLog, consLog, List.filter_cons] at ih ⊢ <;> omega

theorem minv_log_bound (w : Nat) (pre : List Str) (nums : List Int) (m : Main)
    (h : MInv w pre nums m) : m.results.log.length ≤ 2 * nums.length + 2 := by
  have hlen := buf_length_add w nums _ h.inv
  have hcap := h.inv.cap_eq
  obtain ⟨sent, h1, h2⟩ := h.inv.split
  have h3 := congrArg List.length h.inv.prod_log
  have h4 := congrArg List.length h.cons_eq
  have h5 := congrArg List.length h1
  have h6 := congrArg List.length h2
  have h7 : (if m.results.prodDone = true then [Act.closedCh] else []).length ≤ 1 := by
    split <;> simp
  have h8 : (if m.status = Status.exited then [Act.gotClosed] else []).length ≤ 1 := by
    split <;> simp
  simp only [List.length_append, List.length_map, doubled] at h3 h4 h5 h6
  rw [log_length]
  omega

theorem minv_progress_isSome (w : Nat) (pre : List Str) (nums : List Int) (m : Main)
    (h : MInv w pre nums m) (hst : m.status = Status.waiting) :
    ∃ e, e ≠ MainEvent.timer ∧ (m.step w e).isSome = true := by
  cases hd : m.results.prodDone with
  | false =>
    have hp : ∃ t, m.results.prodStep w = some t := by
      cases ht : m.results.todo with
      | nil => exact ⟨_, prodStep_close w nums _ h.inv hd ht⟩
      | cons num rest => exact ⟨_, (prodStep_send w nums _ h.inv num rest ht).2⟩
    obtain ⟨t, ht⟩ := hp
    exact ⟨MainEvent.prod, by simp, by simp [Main.step, h.inv.nocrash, hst, ht]⟩
  | true =>
    cases hb : m.results.ch.buf with
    | nil =>
      refine ⟨MainEvent.recv, by simp, ?_⟩
      simp [Main.step, h.inv.nocrash, hst, Sys.recvStep, Chan.recv, hb, h.inv.closed_eq, hd]
    | cons x rest =>
      refine ⟨MainEvent.recv, by simp, ?_⟩
      simp [Main.step, h.inv.nocrash, hst, Sys.recvStep, Chan.recv, hb]

theorem minv_progress (w : Nat) (pre : List Str) (nums : List Int) (m : Main)
    (h : MInv w pre nums m) (hst : m.status = Status.waiting) :
    ∃ e m', e ≠ MainEvent.timer ∧ m.step w e = some m' := by
  obtain ⟨e, he, hs⟩ := minv_progress_isSome w pre nums m h hst
  obtain ⟨m', hm'⟩ := Option.isSome_iff_exists.mp hs
  exact ⟨e, m', he, hm'⟩

theorem main_terminates_from (w : Nat) (pre : List Str) (nums : List Int) (n : Nat) :
    ∀ (es : List MainEvent) (m : Main),
      Main.exec w es (loopStart pre nums) = some m → MainEvent.timer ∉ es →
      2 * nums.length + 2 - es.length ≤ n →
      ∃ fs m', MainEvent.timer ∉ fs ∧ Main.exec w fs m = some m'
        ∧ m'.status = Status.exited := by
  induction n with
  | zero =>
    intro es m hm hnt hn
    obtain ⟨i1, i2⟩ := minv_exec w pre nums es _ m (minv_init w pre nums) hm
    obtain ⟨j1, j2⟩ := i2 hnt (by simp [loopStart])
    have hb := minv_log_bound w pre nums m i1
    cases hst : m.status with
    | waiting =>
      obtain ⟨e, m1, he, hstep⟩ := minv_progress w pre nums m i1 hst
      obtain ⟨k1, k2⟩ := minv_step w pre nums e m m1 i1 hstep
      have hb1 := minv_log_bound w pre nums m1 k1
      have := (k2 he).2
      simp [loopStart, processAsync] at j2
      omega
    | exited => exact ⟨[], m, by simp, rfl, hst⟩
    | timedOut => exact absurd hst j1
  | succ n ih =>
    intro es m hm hnt hn
    obtain ⟨i1, i2⟩ := minv_exec w pre nums es _ m (minv_init w pre nums) hm
    obtain ⟨j1, j2⟩ := i2 hnt (by simp [loopStart])
    cases hst : m.status with
    | waiting =>
      obtain ⟨e, m1, he, hstep⟩ := minv_progress w pre nums m i1 hst
      have hm1 : Main.exec w (es ++ [e]) (loopStart pre nums) = some m1 := by
        rw [main_exec_append, hm]
        simp [Main.exec, hstep]
      have hnt1 : MainEvent.timer ∉ es ++ [e] := by
        simp only [List.mem_append, List.mem_singleton, not_or]
        exact ⟨hnt, fun e' => he e'.symm⟩
      obtain ⟨fs, m2, f1, f2, f3⟩ := ih (es ++ [e]) m1 hm1 hnt1 (by
        simp only [List.length_append, List.length_singleton]; omega)
      refine ⟨e :: fs, m2, ?_, ?_, f3⟩
      · simp only [List.mem_cons, not_or]
        exact ⟨fun e' => he e'.symm, f1⟩
      · simp [Main.exec, hstep, f2]
    | exited => exact ⟨[], m, by simp, rfl, hst⟩
    | timedOut => exact absurd hst j1

theorem main_eq_loopStart (w : Nat) (hw : 32 ≤ w) :
    main w = loopStart mainHeader [1, 2, 3, 4, 5] := by
  have h8 : calculateSum w 5 3 = 8 := by
    have := wrapInt_of_isInt w (by omega) 8 (isInt_of_small w hw 8 (by norm_num) (by norm_num))
    simpa [calculateSum] using this
  unfold main
  simp only [h8]
  rfl

theorem doubled_numbers (w : Nat) (hw : 32 ≤ w) :
    doubled w [1, 2, 3, 4, 5] = [2, 4, 6, 8, 10] := by
  rw [doubled_exact w (by omega)]
  · rfl
  · intro x hx
    simp only [List.mem_cons, List.mem_singleton, List.not_mem_nil, or_false] at hx
    apply isInt_of_small w hw
    · rcases hx with rfl | rfl | rfl | rfl | rfl <;> norm_num
    · rcases hx with rfl | rfl | rfl | rfl | rfl <;> norm_num

theorem mainResults_eq : [2, 4, 6, 8, 10].map resultLine = mainResults := by
  decide

theorem main_stuck (w : Nat) (m : Main) (hst : m.status ≠ Status.waiting) (e : MainEvent) :
    m.step w e = none := by
  unfold Main.step
  cases h : m.status with
  | waiting => exact absurd h hst
  | exited => simp
  | timedOut => simp

theorem minv_exited_out (w : Nat) (pre : List Str) (nums : List Int) (m : Main)
    (h : MInv w pre nums m) (hst : m.status = Status.exited) :
    m.out = pre ++ (doubled w nums).map resultLine := by
  have hc : Act.gotClosed ∈ m.results.log := by
    have : Act.gotClosed ∈ consLog m.results.log := by
      rw [h.cons_eq]; simp [hst]
    exact (List.mem_filter.mp this).1
  rw [h.out_eq, received_complete w nums _ h.inv hc]
  simp [hst]

/-- C7: every run of `main` in which the timer never fires is finite (at most
twelve steps of the goroutine and the loop), can always take a further step
while `main` has not returned, and reaches the return of `main`; when `main`
has returned, standard output holds exactly the seven lines
`Person{Name: Alice, Age: 30}`, `Sum: 8`, `Result: 2`, `Result: 4`,
`Result: 6`, `Result: 8`, `Result: 10`, in this order, and nothing moves any
more. -/
theorem main_output (w : Nat) (hw : 32 ≤ w) (es : List MainEvent) (m : Main)
    (hm : Main.exec w es (main w) = some m) (hnt : MainEvent.timer ∉ es) :
    (m.status ≠ Status.waiting →
        m.status = Status.exited
        ∧ m.out = ["Person\x7bName: Alice, Age: 30\x7d\n", "Sum: 8\n", "Result: 2\n",
                   "Result: 4\n", "Result: 6\n", "Result: 8\n", "Result: 10\n"]
        ∧ ∀ e, m.step w e = none)
      ∧ es.length ≤ 12
      ∧ (m.status = Status.waiting →
          ∃ e, e ≠ MainEvent.timer ∧ (m.step w e).isSome = true)
      ∧ (∃ fs m', MainEvent.timer ∉ fs ∧ Main.exec w fs m = some m'
          ∧ m'.status = Status.exited
          ∧ m'.out = ["Person\x7bName: Alice, Age: 30\x7d\n", "Sum: 8\n", "Result: 2\n",
                      "Result: 4\n", "Result: 6\n", "Result: 8\n", "Result: 10\n"]) := by
  rw [main_eq_loopStart w hw] at hm
  obtain ⟨i1, i2⟩ := minv_exec w _ _ es _ m (minv_init w _ _) hm
  obtain ⟨j1, j2⟩ := i2 hnt (by simp [loopStart])
  have hout : ∀ u : Main, MInv w mainHeader [1, 2, 3, 4, 5] u → u.status = Status.exited →
      u.out = ["Person\x7bName: Alice, Age: 30\x7d\n", "Sum: 8\n", "Result: 2\n",
               "Result: 4\n", "Result: 6\n", "Result: 8\n", "Result: 10\n"] := by
    intro u hu hst
    rw [minv_exited_out w _ _ u hu hst, doubled_numbers w hw, mainResults_eq]
    rfl
  have hb := minv_log_bound w _ _ m i1
  refine ⟨?_, ?_, minv_progress_isSome w _ _ m i1, ?_⟩
  · intro hst
    have hex : m.status = Status.exited := by
      cases h : m.status with
      | waiting => exact absurd h hst
      | exited => rfl
      | timedOut => exact absurd h j1
    exact ⟨hex, hout m i1 hex, main_stuck w m hst⟩
  · simp [loopStart, processAsync] at j2 hb
    omega
  · obtain ⟨fs, m', f1, f2, f3⟩ :=
      main_terminates_from w _ _ (2 * 5 + 2 - es.length) es m hm hnt (le_refl _)
    exact ⟨fs, m', f1, f2, f3, hout m' (minv_exec w _ _ fs m m' i1 f2).1 f3⟩

theorem main_output_witness :
    (32 ≤ 64) ∧ Main.exec 64 mainSchedule (main 64) = some mainFinal
      ∧ MainEvent.timer ∉ mainSchedule
      ∧ mainFinal.out = ["Person\x7bName: Alice, Age: 30\x7d\n", "Sum: 8\n", "Result: 2\n",
                         "Result: 4\n", "Result: 6\n", "Result: 8\n", "Result: 10\n"] :=
  ⟨by decide, by decide, by decide,
    ((main_output 64 (by decide) mainSchedule mainFinal (by decide) (by decide)).1
      (by decide)).2.1⟩

/-- C10: the loop of `main` has the single state of waiting in the `select`;
every step of the process is taken in that state and is a step of the
goroutine (nothing printed), a receive of a value (prints `Result: ` and the
value, stays waiting), a receive of the close signal (prints nothing,
returns) or the timer (prints `Timeout`, returns).  Under every interleaving
of these events, the lines printed by the loop are an initial part of
`Result: 2`, ..., `Result: 10` followed by the line `Timeout` exactly when the
timer case was taken, which is then the last line; after a close signal all
five lines were printed, and after the return nothing moves. -/
theorem loop_output (w : Nat) (hw : 32 ≤ w) (es : List MainEvent) (m : Main)
    (hm : Main.exec w es (main w) = some m) :
    (∃ k, k ≤ 5 ∧ m.out = (main w).out
        ++ List.take k ["Result: 2\n", "Result: 4\n", "Result: 6\n", "Result: 8\n",
                        "Result: 10\n"]
        ++ (if m.status = Status.timedOut then ["Timeout\n"] else []))
      ∧ (m.status = Status.exited → m.out = (main w).out
          ++ ["Result: 2\n", "Result: 4\n", "Result: 6\n", "Result: 8\n", "Result: 10\n"])
      ∧ (m.status ≠ Status.waiting → ∀ e, m.step w e = none)
      ∧ (∀ e m', m.step w e = some m' →
          m.status = Status.waiting ∧
            ((e = MainEvent.prod ∧ m'.out = m.out ∧ m'.status = Status.waiting)
            ∨ (e = MainEvent.recv ∧ m'.status = Status.waiting
                ∧ ∃ v, m'.out = m.out ++ ["Result: " ++ formatInt v ++ "\n"])
            ∨ (e = MainEvent.recv ∧ m'.out = m.out ∧ m'.status = Status.exited)
            ∨ (e = MainEvent.timer ∧ m'.out = m.out ++ ["Timeout\n"]
                ∧ m'.status = Status.timedOut))) := by
  have hmain := main_eq_loopStart w hw
  rw [hmain] at hm
  have hpre : (loopStart mainHeader [1, 2, 3, 4, 5]).out = mainHeader := rfl
  rw [hmain, hpre]
  obtain ⟨i1, _⟩ := minv_exec w _ _ es _ m (minv_init w _ _) hm
  refine ⟨?_, ?_, fun hst e => main_stuck w m hst e, ?_⟩
  · have hp : received m.results.log <+: doubled w [1, 2, 3, 4, 5] :=
      ⟨_, (received_initial w _ _ i1.inv).symm⟩
    have hk := hp.length_le
    rw [List.prefix_iff_eq_take] at hp
    refine ⟨(received m.results.log).length, by simpa [doubled] using hk, ?_⟩
    rw [i1.out_eq]
    conv_lhs => rw [hp]
    rw [doubled_numbers w hw, List.map_take, mainResults_eq]
    rfl
  · intro hst
    rw [minv_exited_out w _ _ m i1 hst, doubled_numbers w hw, mainResults_eq]
    rfl
  · intro e m' hs
    obtain ⟨hst, hcase⟩ := main_step_shape w e m m' hs
    refine ⟨hst, ?_⟩
    rcases hcase with ⟨h1, _, h2, h3⟩ | ⟨h1, ⟨v, _, h2⟩, h3⟩ | ⟨h1, _, h2, h3⟩
        | ⟨h1, _, h2, h3⟩
    · exact Or.inl ⟨h1, h2, h3⟩
    · exact Or.inr (Or.inl ⟨h1, h3, v, by rw [h2, resultLine_eq]⟩)
    · exact Or.inr (Or.inr (Or.inl ⟨h1, h2, h3⟩))
    · exact Or.inr (Or.inr (Or.inr ⟨h1, h2, h3⟩))

theorem loop_output_witness :
    (32 ≤ 64) ∧ Main.exec 64 timeoutSchedule (main 64) = some mainTimedOut
      ∧ ∃ k, k ≤ 5 ∧ mainTimedOut.out = (main 64).out
          ++ List.take k ["Result: 2\n", "Result: 4\n", "Result: 6\n", "Result: 8\n",
                          "Result: 10\n"]
          ++ (if mainTimedOut.status = Status.timedOut then ["Timeout\n"] else []) :=
  ⟨by decide, by decide,
    (loop_output 64 (by decide) timeoutSchedule mainTimedOut (by decide)).1⟩

/-! ## Two invocations in one runtime -/

theorem ginv_empty (w : Nat) : GInv w Runtime.empty where
  nocrash := rfl
  len_eq := rfl
  owns := by simp [Runtime.empty]
  fresh := by simp [Runtime.empty]
  streams := by simp [Runtime.empty, Runtime.view]

theorem view_of_proc (w : Nat) (rt : Runtime) (h : GInv w rt) (g : Nat) (p : Goroutine)
    (hp : rt.procs[g]? = some p) :
    p.results = g ∧ ∃ c, rt.chans[g]? = some c
      ∧ rt.view g = some { todo := p.todo, prodDone := p.done, crashed := false, ch := c,
                           log := logOf g rt.trace } := by
  have ho := h.owns g p hp
  have hg : g < rt.chans.length := by
    rw [h.len_eq]
    exact (List.getElem?_eq_some.mp hp).1
  refine ⟨ho, rt.chans[g], List.getElem?_eq_getElem hg, ?_⟩
  simp [Runtime.view, hp, ho, List.getElem?_eq_getElem hg, h.nocrash]

theorem proc_of_view (w : Nat) (rt : Runtime) (h : GInv w rt) (g : Nat) (s : Sys)
    (hv : rt.view g = some s) :
    ∃ p c, rt.procs[g]? = some p ∧ p.results = g ∧ rt.chans[g]? = some c
      ∧ s = { todo := p.todo, prodDone := p.done, crashed := false, ch := c,
              log := logOf g rt.trace } := by
  cases hp : rt.procs[g]? with
  | none => simp [Runtime.view, hp] at hv
  | some p =>
    obtain ⟨ho, c, hc, hv2⟩ := view_of_proc w rt h g p hp
    rw [hv2] at hv
    exact ⟨p, c, rfl, ho, hc, (Option.some.inj hv).symm⟩

theorem view_none (w : Nat) (rt : Runtime) (h : GInv w rt) (g : Nat)
    (hv : rt.view g = none) : rt.procs[g]? = none ∧ rt.chans[g]? = none := by
  cases hp : rt.procs[g]? with
  | none =>
    refine ⟨rfl, ?_⟩
    rw [List.getElem?_eq_none_iff] at hp ⊢
    rw [h.len_eq]; exact hp
  | some p =>
    obtain ⟨_, c, _, hv2⟩ := view_of_proc w rt h g p hp
    rw [hv2] at hv
    exact absurd hv (by simp)

theorem logOf_append_same (c : Nat) (trace : List (Nat × Act)) (a : Act) :
    logOf c (trace ++ [(c, a)]) = logOf c trace ++ [a] := by
  simp [logOf, List.filter_append]

theorem logOf_append_other (c d : Nat) (hne : c ≠ d) (trace : List (Nat × Act)) (a : Act) :
    logOf c (trace ++ [(d, a)]) = logOf c trace := by
  simp [logOf, List.filter_append, List.filter_cons, Ne.symm hne]

theorem update_stream (w : Nat) (rt rt2 : Runtime) (h : GInv w rt) (g : Nat)
    (p p2 : Goroutine) (c c2 : Chan) (a : Act)
    (hp : rt.procs[g]? = some p) (hc : rt.chans[g]? = some c) (hp2 : p2.results = g)
    (hinv : ∃ nums, Inv w nums { todo := p2.todo, prodDone := p2.done, crashed := false,
                                 ch := c2, log := logOf g rt.trace ++ [a] })
    (hrt : rt2 = { rt with chans := rt.chans.set g c2, procs := rt.procs.set g p2,
                           trace := rt.trace ++ [(g, a)] }) :
    rt2.view g = some { todo := p2.todo, prodDone := p2.done, crashed := false, ch := c2,
                        log := logOf g rt.trace ++ [a] }
      ∧ GInv w rt2 ∧ ∀ g2, g2 ≠ g → rt2.view g2 = rt.view g2 := by
  subst hrt
  have hgp : g < rt.procs.length := (List.getElem?_eq_some.mp hp).1
  have hgc : g < rt.chans.length := (List.getElem?_eq_some.mp hc).1
  refine ⟨?_, ⟨h.nocrash, by simp [h.len_eq], ?_, ?_, ?_⟩, ?_⟩
  · simp [Runtime.view, List.getElem?_set_self hgp, hp2, List.getElem?_set_self hgc,
      logOf_append_same, h.nocrash]
  · intro g2 q hq
    by_cases hne : g2 = g
    · subst hne
      simp only [List.getElem?_set_self hgp, Option.some.injEq] at hq
      subst hq
      exact hp2
    · simp only [List.getElem?_set_ne (Ne.symm hne)] at hq
      exact h.owns g2 q hq
  · intro e he
    simp only [List.mem_append, List.mem_singleton, List.length_set] at he ⊢
    rcases he with he | rfl
    · exact h.fresh e he
    · exact hgc
  · intro g2 s hs
    by_cases hne : g2 = g
    · subst hne
      simp only [Runtime.view, List.getElem?_set_self hgp, hp2, List.getElem?_set_self hgc,
        logOf_append_same, h.nocrash, Option.some.injEq] at hs
      obtain ⟨nums, hn⟩ := hinv
      exact ⟨nums, hs ▸ hn⟩
    · cases hq : rt.procs[g2]? with
      | none => simp [Runtime.view, List.getElem?_set_ne (Ne.symm hne), hq] at hs
      | some q =>
        have hq2 := h.owns g2 q hq
        simp only [Runtime.view, List.getElem?_set_ne (Ne.symm hne), hq, hq2,
          logOf_append_other g2 g hne] at hs
        exact h.streams g2 s (by simpa [Runtime.view, hq, hq2] using hs)
  · intro g2 hne
    cases hq : rt.procs[g2]? with
    | none => simp [Runtime.view, List.getElem?_set_ne (Ne.symm hne), hq]
    | some q =>
      have hq2 := h.owns g2 q hq
      simp [Runtime.view, List.getElem?_set_ne (Ne.symm hne), hq, hq2,
        logOf_append_other g2 g hne]

theorem set_same (l : List Goroutine) (i : Nat) (a : Goroutine) (h : l[i]? = some a) :
    l.set i a = l := by
  induction l generalizing i with
  | nil => rfl
  | cons x xs ih =>
    cases i with
    | zero =>
      simp only [List.getElem?_cons_zero, Option.some.injEq] at h
      simp [h]
    | succ n =>
      simp only [List.getElem?_cons_succ] at h
      simp [ih n h]

theorem go_lockstep (w : Nat) (rt : Runtime) (h : GInv w rt) (g : Nat) (s : Sys)
    (hv : rt.view g = some s) :
    (s.prodStep w = none ∧ rt.goStep w g = none)
      ∨ (∃ s2 rt2, s.prodStep w = some s2 ∧ rt.goStep w g = some rt2
          ∧ rt2.view g = some s2 ∧ GInv w rt2 ∧ ∀ g2, g2 ≠ g → rt2.view g2 = rt.view g2) := by
  obtain ⟨nums, hinv⟩ := h.streams g s hv
  obtain ⟨p, c, hp, ho, hc, rfl⟩ := proc_of_view w rt h g s hv
  obtain ⟨res, todo, done⟩ := p
  simp only at ho
  subst ho
  have hcl : c.closed = done := hinv.closed_eq
  cases done with
  | true =>
    left
    exact ⟨by simp [Sys.prodStep], by simp [Runtime.goStep, h.nocrash, hp]⟩
  | false =>
    right
    cases todo with
    | nil =>
      have hs := prodStep_close w nums _ hinv rfl rfl
      have hinv2 := inv_prodStep w nums _ _ hinv hs
      obtain ⟨u1, u2, u3⟩ := update_stream w rt _ h res _
        { results := res, todo := [], done := true } c
        { c with closed := true } Act.closedCh hp hc rfl ⟨nums, hinv2⟩ rfl
      refine ⟨_, _, hs, ?_, u1, u2, u3⟩
      simp [Runtime.goStep, h.nocrash, hp, hc, Chan.close, hcl]
    | cons num rest =>
      obtain ⟨hroom, hs⟩ := prodStep_send w nums _ hinv num rest rfl
      have hinv2 := inv_prodStep w nums _ _ hinv hs
      obtain ⟨u1, u2, u3⟩ := update_stream w rt _ h res _
        { results := res, todo := rest, done := false } c
        { c with buf := c.buf ++ [wrapInt w (num * 2)] } (Act.wrote (wrapInt w (num * 2)))
        hp hc rfl ⟨nums, hinv2⟩ rfl
      refine ⟨_, _, hs, ?_, u1, u2, u3⟩
      have hroom2 : c.buf.length < c.cap := hroom
      simp [Runtime.goStep, h.nocrash, hp, hc, Chan.send, hcl, hroom2]

theorem recv_lockstep (w : Nat) (rt : Runtime) (h : GInv w rt) (g : Nat) (s : Sys)
    (hv : rt.view g = some s) :
    (s.recvStep = none ∧ rt.recvStep g = none)
      ∨ (∃ s2 v ok rt2, s.recvStep = some (s2, v, ok) ∧ rt.recvStep g = some rt2
          ∧ rt2.view g = some s2 ∧ GInv w rt2 ∧ ∀ g2, g2 ≠ g → rt2.view g2 = rt.view g2) := by
  obtain ⟨nums, hinv⟩ := h.streams g s hv
  obtain ⟨p, c, hp, ho, hc, rfl⟩ := proc_of_view w rt h g s hv
  have hset : rt.procs.set g p = rt.procs := set_same _ _ _ hp
  cases hr : c.recv with
  | none =>
    left
    exact ⟨by simp [Sys.recvStep, hr], by simp [Runtime.recvStep, h.nocrash, hc, hr]⟩
  | some r =>
    right
    obtain ⟨c2, v, ok⟩ := r
    have hs : Sys.recvStep { todo := p.todo, prodDone := p.done, crashed := false, ch := c,
                             log := logOf g rt.trace }
        = some ({ todo := p.todo, prodDone := p.done, crashed := false, ch := c2,
                  log := logOf g rt.trace ++ [if ok then Act.got v else Act.gotClosed] },
                v, ok) := by
      simp [Sys.recvStep, hr]
    have hinv2 := (inv_recvStep w nums _ _ v ok hinv hs).1
    obtain ⟨u1, u2, u3⟩ := update_stream w rt _ h g p p c c2
      (if ok then Act.got v else Act.gotClosed) hp hc ho ⟨nums, hinv2⟩ rfl
    refine ⟨_, v, ok, _, hs, ?_, u1, u2, u3⟩
    simp [Runtime.recvStep, h.nocrash, hc, hr, hset]

theorem views_step (w : Nat) (rt rt2 : Runtime) (h : GInv w rt) (e : RtEvent)
    (hs : rt.step w e = some rt2) :
    GInv w rt2 ∧ ∀ g s, rt.view g = some s →
      ∃ s2, rt2.view g = some s2 ∧ Sys.exec w (streamEvents g g [e]) s = some s2 := by
  cases e with
  | go g0 =>
    simp only [Runtime.step] at hs
    cases hv0 : rt.view g0 with
    | none =>
      have := (view_none w rt h g0 hv0).1
      simp [Runtime.goStep, h.nocrash, this] at hs
    | some s0 =>
      rcases go_lockstep w rt h g0 s0 hv0 with ⟨_, h2⟩ | ⟨t0, rt3, h1, h2, h3, h4, h5⟩
      · rw [h2] at hs; exact absurd hs (by simp)
      · rw [h2] at hs
        obtain rfl := Option.some.inj hs
        refine ⟨h4, fun g s hv => ?_⟩
        by_cases hg : g = g0
        · subst hg
          rw [hv0] at hv
          obtain rfl := Option.some.inj hv
          exact ⟨t0, h3, by simp [streamEvents, Sys.exec, Sys.step, h1]⟩
        · exact ⟨s, by rw [h5 g hg, hv],
            by simp [streamEvents, Sys.exec, Ne.symm hg]⟩
  | recv c0 =>
    simp only [Runtime.step] at hs
    cases hv0 : rt.view c0 with
    | none =>
      have := (view_none w rt h c0 hv0).2
      simp [Runtime.recvStep, h.nocrash, this] at hs
    | some s0 =>
      rcases recv_lockstep w rt h c0 s0 hv0 with ⟨_, h2⟩ | ⟨t0, v, ok, rt3, h1, h2, h3, h4, h5⟩
      · rw [h2] at hs; exact absurd hs (by simp)
      · rw [h2] at hs
        obtain rfl := Option.some.inj hs
        refine ⟨h4, fun g s hv => ?_⟩
        by_cases hg : g = c0
        · subst hg
          rw [hv0] at hv
          obtain rfl := Option.some.inj hv
          exact ⟨t0, h3, by simp [streamEvents, Sys.exec, Sys.step, h1]⟩
        · exact ⟨s, by rw [h5 g hg, hv],
            by simp [streamEvents, Sys.exec, Ne.symm hg]⟩

theorem streamEvents_cons (g c : Nat) (e : RtEvent) (es : List RtEvent) :
    streamEvents g c (e :: es) = streamEvents g c [e] ++ streamEvents g c es := by
  unfold streamEvents
  rw [← List.filterMap_append]
  rfl

theorem views_exec (w : Nat) (es : List RtEvent) (rt rt2 : Runtime) (h : GInv w rt)
    (hs : Runtime.exec w es rt = some rt2) :
    GInv w rt2 ∧ ∀ g s, rt.view g = some s →
      ∃ s2, rt2.view g = some s2 ∧ Sys.exec w (streamEvents g g es) s = some s2 := by
  induction es generalizing rt with
  | nil =>
    simp only [Runtime.exec, Option.some.injEq] at hs
    subst hs
    exact ⟨h, fun g s hv => ⟨s, hv, rfl⟩⟩
  | cons e es ih =>
    simp only [Runtime.exec, Option.bind_eq_some] at hs
    obtain ⟨rt1, h1, h2⟩ := hs
    obtain ⟨i1, i2⟩ := views_step w rt rt1 h e h1
    obtain ⟨j1, j2⟩ := ih rt1 i1 h2
    refine ⟨j1, fun g s hv => ?_⟩
    obtain ⟨s1, k1, k2⟩ := i2 g s hv
    obtain ⟨s2, k3, k4⟩ := j2 g s1 k1
    exact ⟨s2, k3, by rw [streamEvents_cons, exec_append, k2]; exact k4⟩

theorem lift_step (w : Nat) (rt : Runtime) (h : GInv w rt) (g : Nat) (s t : Sys)
    (hv : rt.view g = some s) (ev : Event) (hs : s.step w ev = some t) :
    ∃ rt2, rt.step w (liftEvent g g ev) = some rt2 ∧ rt2.view g = some t ∧ GInv w rt2
      ∧ ∀ g2, g2 ≠ g → rt2.view g2 = rt.view g2 := by
  cases ev with
  | prod =>
    simp only [Sys.step] at hs
    rcases go_lockstep w rt h g s hv with ⟨h1, _⟩ | ⟨t0, rt3, h1, h2, h3, h4, h5⟩
    · rw [h1] at hs; exact absurd hs (by simp)
    · rw [h1] at hs
      obtain rfl := Option.some.inj hs
      exact ⟨rt3, h2, h3, h4, h5⟩
  | recv =>
    simp only [Sys.step] at hs
    rcases recv_lockstep w rt h g s hv with ⟨h1, _⟩ | ⟨t0, v, ok, rt3, h1, h2, h3, h4, h5⟩
    · rw [h1] at hs; exact absurd hs (by simp)
    · rw [h1] at hs
      simp only [Option.map_some', Option.some.injEq] at hs
      subst hs
      exact ⟨rt3, h2, h3, h4, h5⟩

theorem lift_exec (w : Nat) (g : Nat) (fs : List Event) (rt : Runtime) (h : GInv w rt)
    (s t : Sys) (hv : rt.view g = some s) (hs : Sys.exec w fs s = some t) :
    ∃ rt2, Runtime.exec w (fs.map (liftEvent g g)) rt = some rt2 ∧ rt2.view g = some t
      ∧ GInv w rt2 ∧ ∀ g2, g2 ≠ g → rt2.view g2 = rt.view g2 := by
  induction fs generalizing rt s with
  | nil =>
    simp only [Sys.exec, Option.some.injEq] at hs
    subst hs
    exact ⟨rt, rfl, hv, h, fun _ _ => rfl⟩
  | cons ev fs ih =>
    simp only [Sys.exec, Option.bind_eq_some] at hs
    obtain ⟨s1, h1, h2⟩ := hs
    obtain ⟨rt1, i1, i2, i3, i4⟩ := lift_step w rt h g s s1 hv ev h1
    obtain ⟨rt2, j1, j2, j3, j4⟩ := ih rt1 i3 s1 i2 h2
    refine ⟨rt2, ?_, j2, j3, fun g2 hne => by rw [j4 g2 hne, i4 g2 hne]⟩
    simp [Runtime.exec, i1, j1]

theorem logOf_fresh (c : Nat) (trace : List (Nat × Act)) (h : ∀ e ∈ trace, e.1 < c) :
    logOf c trace = [] := by
  simp only [logOf, List.map_eq_nil_iff, List.filter_eq_nil_iff, decide_eq_true_eq]
  intro e he
  exact Nat.ne_of_lt (h e he)

theorem view_call (w : Nat) (rt : Runtime) (nums : List Int) (h : GInv w rt) (g : Nat) :
    (rt.processAsync nums).2.view g
      = if g < rt.procs.length then rt.view g
        else if g = rt.procs.length then some (processAsync nums) else none := by
  have hlen := h.len_eq
  by_cases h1 : g < rt.procs.length
  · rw [if_pos h1]
    have hp : rt.procs[g]? = some rt.procs[g] := List.getElem?_eq_getElem h1
    have ho := h.owns g _ hp
    have h2 : g < rt.chans.length := by omega
    simp [Runtime.view, Runtime.processAsync, List.getElem?_append_left h1, hp, ho,
      List.getElem?_append_left h2]
  · rw [if_neg h1]
    by_cases h2 : g = rt.procs.length
    · rw [if_pos h2]
      subst h2
      have hlog := logOf_fresh rt.chans.length rt.trace h.fresh
      simp [Runtime.view, Runtime.processAsync, ← hlen, hlog, h.nocrash, Examplesrc.processAsync]
    · rw [if_neg h2]
      have : (rt.procs ++ [({ results := rt.chans.length, todo := nums, done := false }
          : Goroutine)])[g]? = none := by
        rw [List.getElem?_eq_none_iff]
        simp only [List.length_append, List.length_singleton]
        omega
      simp [Runtime.view, Runtime.processAsync, this]

theorem call_views (w : Nat) (rt : Runtime) (nums : List Int) (h : GInv w rt) :
    (rt.processAsync nums).1 = rt.procs.length
      ∧ GInv w (rt.processAsync nums).2
      ∧ (rt.processAsync nums).2.view rt.procs.length = some (processAsync nums)
      ∧ ∀ g s, rt.view g = some s → (rt.processAsync nums).2.view g = some s := by
  have hlen := h.len_eq
  refine ⟨hlen, ⟨h.nocrash, ?_, ?_, ?_, ?_⟩, ?_, ?_⟩
  · simp [Runtime.processAsync, hlen]
  · intro g p hp
    simp only [Runtime.processAsync] at hp
    by_cases h1 : g < rt.procs.length
    · rw [List.getElem?_append_left h1] at hp
      exact h.owns g p hp
    · rw [List.getElem?_append_right (by omega)] at hp
      have h2 : g - rt.procs.length = 0 := by
        by_contra hne
        have : [({ results := rt.chans.length, todo := nums, done := false }
            : Goroutine)][g - rt.procs.length]? = none := by
          rw [List.getElem?_eq_none_iff]; simp; omega
        rw [this] at hp
        exact absurd hp (by simp)
      rw [h2] at hp
      simp only [List.getElem?_cons_zero, Option.some.injEq] at hp
      subst hp
      simp only
      omega
  · intro e he
    have := h.fresh e he
    simp only [Runtime.processAsync, List.length_append, List.length_singleton]
    omega
  · intro g s hs
    rw [view_call w rt nums h g] at hs
    split at hs
    · exact h.streams g s hs
    · split at hs
      · exact ⟨nums, (Option.some.inj hs) ▸ inv_init w nums⟩
      · exact absurd hs (by simp)
  · rw [view_call w rt nums h]
    simp
  · intro g s hs
    rw [view_call w rt nums h g]
    have h1 : g < rt.procs.length := by
      obtain ⟨p, c, hp, _⟩ := proc_of_view w rt h g s hs
      exact (List.getElem?_eq_some.mp hp).1
    rw [if_pos h1, hs]

theorem step_length (w : Nat) (rt rt2 : Runtime) (e : RtEvent)
    (hs : rt.step w e = some rt2) : rt2.procs.length = rt.procs.length := by
  cases e with
  | go g =>
    simp only [Runtime.step, Runtime.goStep] at hs
    repeat' split at hs
    all_goals first
      | (simp only [Option.some.injEq] at hs; subst hs; simp)
      | simp at hs
  | recv c =>
    simp only [Runtime.step, Runtime.recvStep] at hs
    repeat' split at hs
    all_goals first
      | (simp only [Option.some.injEq] at hs; subst hs; simp)
      | simp at hs

theorem exec_length (w : Nat) (es : List RtEvent) (rt rt2 : Runtime)
    (hs : Runtime.exec w es rt = some rt2) : rt2.procs.length = rt.procs.length := by
  induction es generalizing rt with
  | nil =>
    simp only [Runtime.exec, Option.some.injEq] at hs
    rw [hs]
  | cons e es ih =>
    simp only [Runtime.exec, Option.bind_eq_some] at hs
    obtain ⟨rt1, h1, h2⟩ := hs
    rw [ih rt1 h2, step_length w rt rt1 e h1]

theorem view_log (w : Nat) (rt : Runtime) (h : GInv w rt) (g : Nat) (s : Sys)
    (hv : rt.view g = some s) : s.log = logOf g rt.trace := by
  obtain ⟨p, c, _, _, _, rfl⟩ := proc_of_view w rt h g s hv
  rfl

theorem stream_safe (w : Nat) (nums : List Int) (rt : Runtime) (h : GInv w rt) (g : Nat)
    (s : Sys) (hv : rt.view g = some s) (hi : Inv w nums s) :
    rt.delivered g <+: doubled w nums
      ∧ (Act.gotClosed ∈ logOf g rt.trace → rt.delivered g = doubled w nums) := by
  have hl := view_log w rt h g s hv
  unfold Runtime.delivered
  rw [← hl]
  exact ⟨⟨_, (received_initial w nums s hi).symm⟩, received_complete w nums s hi⟩

theorem stream_live (w : Nat) (nums : List Int) (rt : Runtime) (h : GInv w rt) (g : Nat)
    (s : Sys) (hv : rt.view g = some s) (hi : Inv w nums s) :
    ∃ fs rt2, (∀ e ∈ fs, e = RtEvent.go g ∨ e = RtEvent.recv g)
      ∧ Runtime.exec w fs rt = some rt2
      ∧ rt2.delivered g = doubled w nums
      ∧ (∃ k, 0 < k ∧ consLog (logOf g rt2.trace)
          = (doubled w nums).map Act.got ++ List.replicate k Act.gotClosed)
      ∧ ∀ g2, g2 ≠ g → rt2.view g2 = rt.view g2 := by
  obtain ⟨fs, t, h1, _, h3⟩ := can_finish w nums s hi
  obtain ⟨rt2, j1, j2, j3, j4⟩ := lift_exec w g fs rt h s t hv h1
  have hit := inv_exec w nums fs s t hi h1
  have hl := view_log w rt2 j3 g t j2
  have hrec := received_complete w nums t hit h3
  refine ⟨fs.map (liftEvent g g), rt2, ?_, j1, ?_, ?_, j4⟩
  · intro e he
    obtain ⟨ev, _, rfl⟩ := List.mem_map.mp he
    cases ev
    · exact Or.inl rfl
    · exact Or.inr rfl
  · unfold Runtime.delivered
    rw [← hl, hrec]
  · obtain ⟨k, hk1, _⟩ := hit.cons_log
    have hmem : Act.gotClosed ∈ consLog t.log := by simp [consLog, List.mem_filter, h3]
    rw [hk1] at hmem
    have hk : 0 < k := by
      rcases Nat.eq_zero_or_pos k with h0 | h0
      · subst h0; simp at hmem
      · exact h0
    exact ⟨k, hk, by rw [← hl, hk1, hrec]⟩

/-- C8: when `processAsync` is invoked twice with the same input in one
process (the second call at any point of the run of the first), the two
calls return different channels, and under every interleaving of the two
goroutines and of receives from the two channels each stream is in the state
its own events alone lead to from `processAsync(nums)`: receiving or not
receiving from one stream does not change the other.  Each stream has
delivered an initial part of the doubled sequence, exactly the doubled
sequence once its close signal is seen, and from every reachable state each
stream can, by its own events alone and without touching the other, deliver
the whole doubled sequence followed by the close signal; the sequence
delivered is a function of the input alone. -/
theorem processAsync_twice (w : Nat) (nums : List Int) (es1 es2 : List RtEvent)
    (rt1 rt : Runtime)
    (h1 : Runtime.exec w es1 (Runtime.empty.processAsync nums).2 = some rt1)
    (h2 : Runtime.exec w es2 (rt1.processAsync nums).2 = some rt) :
    ((Runtime.empty.processAsync nums).1 = 0 ∧ (rt1.processAsync nums).1 = 1)
      ∧ (∃ s1 s2, rt.view 0 = some s1 ∧ rt.view 1 = some s2
          ∧ Sys.exec w (streamEvents 0 0 (es1 ++ es2)) (processAsync nums) = some s1
          ∧ Sys.exec w (streamEvents 1 1 es2) (processAsync nums) = some s2)
      ∧ (∀ fs rt2, Runtime.exec w fs (rt1.processAsync nums).2 = some rt2 →
          (streamEvents 0 0 fs = streamEvents 0 0 es2 → rt2.view 0 = rt.view 0)
          ∧ (streamEvents 1 1 fs = streamEvents 1 1 es2 → rt2.view 1 = rt.view 1))
      ∧ (rt.delivered 0 <+: doubled w nums ∧ rt.delivered 1 <+: doubled w nums)
      ∧ (Act.gotClosed ∈ logOf 0 rt.trace → rt.delivered 0 = doubled w nums)
      ∧ (Act.gotClosed ∈ logOf 1 rt.trace → rt.delivered 1 = doubled w nums)
      ∧ (∃ fs rt2, (∀ e ∈ fs, e = RtEvent.go 0 ∨ e = RtEvent.recv 0)
          ∧ Runtime.exec w fs rt = some rt2
          ∧ rt2.delivered 0 = doubled w nums
          ∧ (∃ k, 0 < k ∧ consLog (logOf 0 rt2.trace)
              = (doubled w nums).map Act.got ++ List.replicate k Act.gotClosed)
          ∧ rt2.view 1 = rt.view 1)
      ∧ (∃ fs rt2, (∀ e ∈ fs, e = RtEvent.go 1 ∨ e = RtEvent.recv 1)
          ∧ Runtime.exec w fs rt = some rt2
          ∧ rt2.delivered 1 = doubled w nums
          ∧ (∃ k, 0 < k ∧ consLog (logOf 1 rt2.trace)
              = (doubled w nums).map Act.got ++ List.replicate k Act.gotClosed)
          ∧ rt2.view 0 = rt.view 0) := by
  -- the first call
  obtain ⟨a1, a2, a3, _⟩ := call_views w Runtime.empty nums (ginv_empty w)
  have a3 : (Runtime.empty.processAsync nums).2.view 0 = some (processAsync nums) := a3
  obtain ⟨b1, b2⟩ := views_exec w es1 _ rt1 a2 h1
  obtain ⟨sa, b3, b4⟩ := b2 0 _ a3
  have hlen1 : rt1.procs.length = 1 := by
    rw [exec_length w es1 _ rt1 h1]
    simp [Runtime.processAsync, Runtime.empty]
  -- the second call
  obtain ⟨c1, c2, c3, c4⟩ := call_views w rt1 nums b1
  rw [hlen1] at c1 c3
  have c5 := c4 0 sa b3
  -- the run after the second call
  have run : ∀ fs rt2, Runtime.exec w fs (rt1.processAsync nums).2 = some rt2 →
      GInv w rt2 ∧ ∃ s1 s2, rt2.view 0 = some s1 ∧ rt2.view 1 = some s2
        ∧ Sys.exec w (streamEvents 0 0 fs) sa = some s1
        ∧ Sys.exec w (streamEvents 1 1 fs) (processAsync nums) = some s2 := by
    intro fs rt2 hfs
    obtain ⟨d1, d2⟩ := views_exec w fs _ rt2 c2 hfs
    obtain ⟨s1, d3, d4⟩ := d2 0 sa c5
    obtain ⟨s2, d5, d6⟩ := d2 1 _ c3
    exact ⟨d1, s1, s2, d3, d5, d4, d6⟩
  obtain ⟨hG, s1, s2, v1, v2, e1, e2⟩ := run es2 rt h2
  have e1full : Sys.exec w (streamEvents 0 0 (es1 ++ es2)) (processAsync nums) = some s1 := by
    have : streamEvents 0 0 (es1 ++ es2) = streamEvents 0 0 es1 ++ streamEvents 0 0 es2 := by
      simp [streamEvents, List.filterMap_append]
    rw [this, exec_append, b4]
    exact e1
  have i1 := inv_reachable w nums _ s1 e1full
  have i2 := inv_reachable w nums _ s2 e2
  obtain ⟨p1, q1⟩ := stream_safe w nums rt hG 0 s1 v1 i1
  obtain ⟨p2, q2⟩ := stream_safe w nums rt hG 1 s2 v2 i2
  refine ⟨⟨a1, c1⟩, ⟨s1, s2, v1, v2, e1full, e2⟩, ?_, ⟨p1, p2⟩, q1, q2, ?_, ?_⟩
  · intro fs rt2 hfs
    obtain ⟨_, t1, t2, w1, w2, f1, f2⟩ := run fs rt2 hfs
    constructor
    · intro heq
      rw [heq, e1] at f1
      rw [w1, v1, Option.some.inj f1]
    · intro heq
      rw [heq, e2] at f2
      rw [w2, v2, Option.some.inj f2]
  · obtain ⟨fs, rt2, l1, l2, l3, l4, l5⟩ := stream_live w nums rt hG 0 s1 v1 i1
    exact ⟨fs, rt2, l1, l2, l3, l4, l5 1 (by decide)⟩
  · obtain ⟨fs, rt2, l1, l2, l3, l4, l5⟩ := stream_live w nums rt hG 1 s2 v2 i2
    exact ⟨fs, rt2, l1, l2, l3, l4, l5 0 (by decide)⟩

theorem processAsync_twice_witness :
    Runtime.exec 64 demoEvents1 (Runtime.empty.processAsync [1, 2]).2 = some demoRuntime1
      ∧ Runtime.exec 64 demoEvents2 (demoRuntime1.processAsync [1, 2]).2 = some demoRuntime2
      ∧ ((Runtime.empty.processAsync [1, 2]).1 = 0 ∧ (demoRuntime1.processAsync [1, 2]).1 = 1)
      ∧ (demoRuntime2.delivered 0 <+: doubled 64 [1, 2]
          ∧ demoRuntime2.delivered 1 <+: doubled 64 [1, 2]) :=
  ⟨by decide, by decide,
    (processAsync_twice 64 [1, 2] demoEvents1 demoEvents2 demoRuntime1 demoRuntime2
      (by decide) (by decide)).1,
    (processAsync_twice 64 [1, 2] demoEvents1 demoEvents2 demoRuntime1 demoRuntime2
      (by decide) (by decide)).2.2.2.1⟩

end Examplesrc
